import Mathlib

/-!
Verification of the process-network execution engine of OPGEE's `Field` class
(`opgee/field.py`): graph assembly (`_connect_processes`), cycle-based
partitioning (`_compute_graph_sections`, `_depends_on_cycle`), the imputation
walker (`_impute`), the partitioned scheduler and convergence loop
(`run_processes`), and stream reset (`reset_streams`).

Processes and streams are identified by natural-number ids standing for their
unique names (`process_dict` / `stream_dict` keys).  Python sets are modelled
as deduplicated lists; the arbitrary iteration order of a Python set is
replaced by a fixed deterministic order, which no proved property depends on.
-/

/-- A `Process` as the engine sees it: its name (id), its `enabled` flag, the
scheduling flags `run_after` (XML `after="true"`), `cycle_start`
(`cycle-start="true"`), `impute_start`, and the mutable input/output stream
lists populated by `_connect_processes` (stream ids, in append order). -/
structure ProcSt where
  pid : Nat
  enabled : Bool
  run_after : Bool := false
  cycle_start : Bool := false
  impute_start : Bool := false
  inputs : List Nat := []
  outputs : List Nat := []
deriving DecidableEq, Repr

/-- A `Stream`: its name (id), declared endpoint names, `enabled` flag, the
`impute` and `has_exogenous_data` flags, and the endpoint references resolved
by `_connect_processes` (`src_proc` / `dst_proc`). -/
structure StrmSt where
  sid : Nat
  src_name : Nat
  dst_name : Nat
  enabled : Bool
  impute : Bool := true
  has_exogenous_data : Bool := false
  src_proc : Option Nat := none
  dst_proc : Option Nat := none
deriving DecidableEq, Repr

/-- A `Field`: all declared processes (enabled and disabled, `process_dict`),
all declared streams (`stream_dict`), the stored list of simple cycles of the
process graph (`self.cycles`, computed in `_after_init` by
`nx.simple_cycles`), and the convergence-iteration ceiling
(`model.maximum_iterations`; the `Model` class is outside the analysed
sources, so the ceiling is carried as a plain configured number). -/
structure OpField where
  procs : List ProcSt
  strms : List StrmSt
  cycles : List (List Nat)
  maximum_iterations : Nat
deriving DecidableEq, Repr

deriving instance DecidableEq for Except

namespace OpField

/-- `find_process`: look a process up by name. -/
def findProc (f : OpField) (pid : Nat) : Option ProcSt :=
  f.procs.find? (fun p => p.pid == pid)

/-- Whether the named process exists and is enabled
(`find_process(name).is_enabled()`). -/
def enabledB (f : OpField) (pid : Nat) : Bool :=
  (f.findProc pid).elim false (·.enabled)

/-- Whether the named process exists, is enabled, and has `run_after` set. -/
def runAfterB (f : OpField) (pid : Nat) : Bool :=
  (f.findProc pid).elim false (fun p => p.enabled && p.run_after)

/-- Whether the named process has `cycle_start` set. -/
def cycleStartB (f : OpField) (pid : Nat) : Bool :=
  (f.findProc pid).elim false (·.cycle_start)

/-- `Field.processes()`: ids of the enabled processes, in declaration order. -/
def enabledList (f : OpField) : List Nat :=
  ((f.procs.filter (·.enabled)).map (·.pid)).dedup

/-- Ids of all declared processes, enabled and disabled
(`Field.all_processes()`). -/
def allPids (f : OpField) : List Nat :=
  (f.procs.map (·.pid)).dedup

/-- `Field.streams()`: the enabled streams. -/
def streamsEnabled (f : OpField) : List StrmSt :=
  f.strms.filter (·.enabled)

/-- The edge list of the process graph built by `_connect_processes`: one
`(src, dst)` name pair per enabled stream (parallel edges permitted). -/
def graphEdges (f : OpField) : List (Nat × Nat) :=
  (f.streamsEnabled).map (fun s => (s.src_name, s.dst_name))

/-- Modelled from the spec: `Process.predecessors()` is not among the analysed
sources; per the interface contract it is derived from the wired input edges,
so the predecessors of `p` are the distinct source names of the enabled
streams whose destination is `p`. -/
def predsOf (f : OpField) (pid : Nat) : List Nat :=
  (((f.streamsEnabled).filter (fun s => s.dst_name == pid)).map (·.src_name)).dedup

/-- Modelled from the spec: `Process.successors()` is not among the analysed
sources; per the interface contract it is derived from the wired output edges,
so the successors of `p` are the distinct destination names of the enabled
streams whose source is `p`. -/
def succsOf (f : OpField) (pid : Nat) : List Nat :=
  (((f.streamsEnabled).filter (fun s => s.src_name == pid)).map (·.dst_name)).dedup

/-- Whether the named process is an enabled member of some stored cycle
(the elements collected into `procs_in_cycles` by
`_compute_graph_sections`). -/
def inCycleB (f : OpField) (pid : Nat) : Bool :=
  f.cycles.any (fun c => c.contains pid) && f.enabledB pid

/-- Whether `enabled_procs_cycles` is nonempty, the gate under which
`_compute_graph_sections` computes the cycle-dependent set. -/
def hasCycleProcs (f : OpField) : Bool :=
  f.cycles.any (fun c => c.any (fun pid => f.enabledB pid))

/-- `Field._depends_on_cycle`, fuel-indexed.  `depOne f fuel p v` walks the
predecessors of `p` with the visited set `v` (a list in insertion order,
shared by mutation across all branches in the Python original): a predecessor
already visited yields `true` at once; otherwise it is added to the visited
set and recursed into.  Returns the verdict and the final visited list. -/
def depOne (f : OpField) : Nat → Nat → List Nat → Bool × List Nat
  | 0, _, v => (false, v)
  | fuel + 1, p, v =>
      (f.predsOf p).foldl
        (fun acc r =>
          match acc with
          | (true, v') => (true, v')
          | (false, v') =>
              if r ∈ v' then (true, v')
              else depOne f fuel r (v' ++ [r]))
        (false, v)

/-- Fuel that always suffices for `depOne`: every node ever added to the
visited set is the source name of some stream, and each recursion level adds
one fresh such name. -/
def depFuel (f : OpField) : Nat :=
  ((f.strms.map (·.src_name)).dedup).length + 1

/-- `Field._depends_on_cycle(process)` at top level: fresh visited set. -/
def dependsOnCycle (f : OpField) (pid : Nat) : Bool :=
  (f.depOne (f.depFuel) pid []).fst

/-- Membership in the `cycle_dependent` set of `_compute_graph_sections`:
enabled, not in `procs_in_cycles`, computed only when some enabled process
lies in a cycle, and `_depends_on_cycle` reports true. -/
def cycleDepB (f : OpField) (pid : Nat) : Bool :=
  f.enabledB pid && !f.inCycleB pid && f.hasCycleProcs && f.dependsOnCycle pid

/-- Membership in the `cycle_independent` set: the enabled processes minus
the other three sets. -/
def indepB (f : OpField) (pid : Nat) : Bool :=
  f.enabledB pid && !f.inCycleB pid && !f.cycleDepB pid && !f.runAfterB pid

/-- The `cycle_independent` set of `_compute_graph_sections`, as an ordered
list (the Python set is unordered). -/
def indepList (f : OpField) : List Nat := (f.enabledList).filter (f.indepB)

/-- The `procs_in_cycles` set, as an ordered list. -/
def inCycleList (f : OpField) : List Nat := (f.enabledList).filter (f.inCycleB)

/-- The `cycle_dependent` set, as an ordered list. -/
def cycleDepList (f : OpField) : List Nat := (f.enabledList).filter (f.cycleDepB)

/-- The `run_afters` set, as an ordered list. -/
def runAfterList (f : OpField) : List Nat := (f.enabledList).filter (f.runAfterB)

/-! ## Imputation walker (`Field._impute`) -/

/-- `Field.find_start_streams()`: the enabled streams carrying exogenous
data. -/
def findStartStreams (f : OpField) : List StrmSt :=
  (f.streamsEnabled).filter (·.has_exogenous_data)

/-- The upstream neighbours visited from `proc` by `_impute_upstream`: the
distinct sources of the input streams whose `impute` flag is set
(`{stream.src_proc for stream in proc.inputs if stream.impute}`). -/
def imputeNbrs (f : OpField) (pid : Nat) : List Nat :=
  (((f.streamsEnabled).filter
      (fun s => s.dst_name == pid && s.impute)).map (·.src_name)).dedup

/-- `Field._impute._impute_upstream`, fuel-indexed.  The visited list doubles
as the trace of `impute()` invocations: a process is marked visited and its
`impute()` run immediately before its upstream neighbours are recursed into.
A process that is missing (`None` reference), disabled, or already visited is
skipped. -/
def impOne (f : OpField) : Nat → Nat → List Nat → List Nat
  | 0, _, v => v
  | fuel + 1, p, v =>
      if f.enabledB p && !v.contains p then
        (f.imputeNbrs p).foldl (fun v' r => impOne f fuel r v') (v ++ [p])
      else v

/-- Fuel that always suffices for `impOne`: each recursion level adds one
fresh visited process, and only declared processes are ever visited. -/
def impFuel (f : OpField) : Nat := (f.allPids).length + 1

/-- The full walk of `_impute_upstream(start_proc)`: the ordered list of
processes whose `impute()` is invoked. -/
def imputeWalk (f : OpField) (start : Nat) : List Nat :=
  f.impOne (f.impFuel) start []

/-- Outcome of `Field._impute`. -/
inductive ImputeOutcome where
  /-- A start stream has `impute` unset: `OpgeeException` (named stream). -/
  | startStreamNotImpute (sid : Nat) : ImputeOutcome
  /-- No start process: no imputation is needed, return silently. -/
  | noop : ImputeOutcome
  /-- More than one start process: `OpgeeException` naming the processes. -/
  | multipleStart (pids : List Nat) : ImputeOutcome
  /-- The walk ran from the single start process, visiting in this order. -/
  | ran (trace : List Nat) : ImputeOutcome
deriving DecidableEq, Repr

/-- The start set of `_impute`: the enabled processes flagged
`impute_start`, or, when there are none, the distinct sources of the start
streams (`{p for p in self.processes() if p.impute_start} or
{stream.src_proc for stream in start_streams}`). -/
def startSet (f : OpField) : List Nat :=
  let flagged := (f.enabledList).filter
    (fun p => (f.findProc p).elim false (·.impute_start))
  if flagged.isEmpty then ((f.findStartStreams).map (·.src_name)).dedup else flagged

/-- `Field._impute`: check that every start stream has `impute` set, compute
the start set, then no-op on zero starts, fail on several, and otherwise walk
upstream from the single start. -/
def imputeRun (f : OpField) : ImputeOutcome :=
  match (f.findStartStreams).find? (fun s => !s.impute) with
  | some s => .startStreamNotImpute s.sid
  | none =>
      match f.startSet with
      | [] => .noop
      | [p] => .ran (f.imputeWalk p)
      | ps => .multipleStart ps

/-! ## Partitioned scheduler and convergence loop (`Field.run_processes`) -/

/-- The edges of `self.graph.subgraph(section)`: the graph edges with both
endpoints in the section. -/
def inducedEdges (f : OpField) (section_ : List Nat) : List (Nat × Nat) :=
  (f.graphEdges).filter (fun e => section_.contains e.1 && section_.contains e.2)

end OpField

/-- The remaining nodes with no incoming edge from a remaining node. -/
def readyNodes (edges : List (Nat × Nat)) (rem : List Nat) : List Nat :=
  rem.filter (fun x => !edges.any (fun e => e.2 == x && rem.contains e.1))

/-- One round of Kahn's algorithm, standing in for `nx.topological_sort`:
emit every remaining node with no incoming edge from a remaining node, until
none remain.  Returns the emitted order and whether the sort completed
(`false` models `NetworkXUnfeasible` on a cyclic subgraph). -/
def kahnP (edges : List (Nat × Nat)) : Nat → List Nat → List Nat → List Nat × Bool
  | 0, rem, acc => (acc, rem.isEmpty)
  | fuel + 1, rem, acc =>
      if rem.isEmpty then (acc, true)
      else
        if (readyNodes edges rem).isEmpty then (acc, false)
        else kahnP edges fuel
          (rem.filter (fun x => !(readyNodes edges rem).contains x))
          (acc ++ readyNodes edges rem)

/-- Topological sort of `nodes` under `edges` (deterministic stand-in for
`nx.topological_sort`). -/
def topoSortP (edges : List (Nat × Nat)) (nodes : List Nat) : List Nat × Bool :=
  kahnP edges nodes.length nodes []

namespace OpField

/-- `run_procs_in_order(section)`: nothing to do on an empty section,
otherwise run the section in topological order of its induced subgraph.
Returns the invocation order and whether the sort succeeded. -/
def runSection (f : OpField) (section_ : List Nat) : List Nat × Bool :=
  if section_.isEmpty then ([], true)
  else topoSortP (f.inducedEdges section_) section_

/-- `run_processes.process_successors`, fuel-indexed: starting from `p`, if
`p` is still unvisited (a member of `unvisited`), remove it, append it to the
order, and recurse into its successors. -/
def walkSucc (f : OpField) : Nat → Nat → List Nat × List Nat → List Nat × List Nat
  | 0, _, st => st
  | fuel + 1, p, (unvis, ord) =>
      if p ∈ unvis then
        (f.succsOf p).foldl (fun st s => walkSucc f fuel s st)
          (unvis.erase p, ord ++ [p])
      else (unvis, ord)

/-- The ordered cyclic node list built by `run_processes`: from a designated
`cycle_start` process walk successors depth-first, then flush any cycle
processes not reached from it; with no start process, the unordered
`procs_in_cycles` set is used as is. -/
def orderedCycle (f : OpField) (starts : List Nat) : List Nat :=
  match starts with
  | [start] =>
      let fuel := (f.inCycleList).length + 2
      let st1 := f.walkSucc fuel start (f.inCycleList, [])
      (st1.1.foldl (fun st o => f.walkSucc fuel o st) st1).2
  | _ => f.inCycleList

end OpField

/-- Errors surfaced by `run_processes`. -/
inductive RunErr where
  /-- `nx.topological_sort` failed on a cyclic induced subgraph. -/
  | topoFail : RunErr
  /-- More than one process has `cycle-start="true"` (`OpgeeException`). -/
  | multiStart (n : Nat) : RunErr
  /-- `OpgeeMaxIterationsReached`, reporting the configured ceiling. -/
  | maxIter (ceiling : Nat) : RunErr
deriving DecidableEq, Repr

/-- One pass of the convergence loop over the ordered cyclic nodes:
`behav pass p = true` means the invocation of `p` in that pass raises
`OpgeeIterationConverged`.  Returns the processes actually invoked (the
converging one included, those after it skipped) and whether the signal was
raised. -/
def runPass (behav : Nat → Nat → Bool) (pass : Nat) : List Nat → List Nat × Bool
  | [] => ([], false)
  | p :: ps =>
      if behav pass p then ([p], true)
      else
        let rest := runPass behav pass ps
        (p :: rest.1, rest.2)

/-- The convergence loop (`while True` in `run_processes`), counting down the
`remaining` iterations allowed by the ceiling read once before the loop:
entering an iteration past the ceiling raises `OpgeeMaxIterationsReached`;
a converged signal ends the loop normally. -/
def convGo (behav : Nat → Nat → Bool) (ordered : List Nat) (maxIter : Nat) :
    Nat → Nat → List Nat → List Nat × Option RunErr
  | 0, _, acc => (acc, some (.maxIter maxIter))
  | remaining + 1, pass, acc =>
      let t := runPass behav pass ordered
      if t.2 then (acc ++ t.1, none)
      else convGo behav ordered maxIter remaining (pass + 1) (acc ++ t.1)

/-- The convergence loop from iteration 1 with the full ceiling available. -/
def convLoop (behav : Nat → Nat → Bool) (ordered : List Nat) (maxIter : Nat) :
    List Nat × Option RunErr :=
  convGo behav ordered maxIter maxIter 1 []

namespace OpField

/-- `Field.run_processes`: run the cycle-independent section topologically,
check the `cycle_start` count, run the convergence loop over the ordered
cyclic nodes (when any), then the cycle-dependent section, then the
`run_after` section.  Returns the full invocation trace and the first error
raised, if any. -/
def runProcesses (f : OpField) (behav : Nat → Nat → Bool) :
    List Nat × Option RunErr :=
  let s1 := f.runSection f.indepList
  if !s1.2 then (s1.1, some .topoFail)
  else
    let starts := (f.inCycleList).filter (f.cycleStartB)
    if starts.length > 1 then (s1.1, some (.multiStart starts.length))
    else
      let s2 :=
        if (f.inCycleList).isEmpty then ([], none)
        else convLoop behav (f.orderedCycle starts) f.maximum_iterations
      match s2.2 with
      | some e => (s1.1 ++ s2.1, some e)
      | none =>
          let s3 := f.runSection f.cycleDepList
          if !s3.2 then (s1.1 ++ s2.1 ++ s3.1, some .topoFail)
          else
            let s4 := f.runSection f.runAfterList
            (s1.1 ++ s2.1 ++ s3.1 ++ s4.1, if s4.2 then none else some .topoFail)

/-! ## Graph builder (`Field._connect_processes`) -/

/-- `nx` node insertion: `add_node` / the implicit node addition of
`add_edge` keep the first insertion only. -/
def addNode (nodes : List Nat) (x : Nat) : List Nat :=
  if x ∈ nodes then nodes else nodes ++ [x]

/-- Clear the input and output lists of every *enabled* process
(`for p in self.processes(): p.inputs.clear(); p.outputs.clear()`). -/
def clearEnabled (procs : List ProcSt) : List ProcSt :=
  procs.map (fun p => if p.enabled then { p with inputs := [], outputs := [] } else p)

/-- Append `sid` to the output list of the process named `pid`. -/
def addOutput (procs : List ProcSt) (pid sid : Nat) : List ProcSt :=
  procs.map (fun p => if p.pid == pid then { p with outputs := p.outputs ++ [sid] } else p)

/-- Append `sid` to the input list of the process named `pid`. -/
def addInput (procs : List ProcSt) (pid sid : Nat) : List ProcSt :=
  procs.map (fun p => if p.pid == pid then { p with inputs := p.inputs ++ [sid] } else p)

/-- The stream-wiring loop of `_connect_processes`, over the remaining
streams, threading the state `(procs, strms, nodes, edges)`.  A disabled
stream is carried over untouched (`Field.streams()` skips it); an enabled
one has both endpoint names resolved (`find_process` raises
`OpgeeException` on an unknown name, source first — modelled by `Except`
carrying the unresolved name), the resolved references stored on the
stream, the stream appended to the source's outputs and the destination's
inputs, and the edge added (adding missing endpoint nodes implicitly, as
`nx.add_edge` does — which is how disabled endpoints of enabled streams
enter the graph). -/
def connGo (f : OpField) :
    List StrmSt → List ProcSt × List StrmSt × List Nat × List (Nat × Nat) →
    Except Nat (List ProcSt × List StrmSt × List Nat × List (Nat × Nat))
  | [], st => .ok st
  | s :: rest, st =>
      if s.enabled then
        match f.findProc s.src_name, f.findProc s.dst_name with
        | none, _ => .error s.src_name
        | some _, none => .error s.dst_name
        | some src, some dst =>
            connGo f rest
              (addInput (addOutput st.1 src.pid s.sid) dst.pid s.sid,
               st.2.1 ++ [{ s with src_proc := some src.pid, dst_proc := some dst.pid }],
               addNode (addNode st.2.2.1 src.pid) dst.pid,
               st.2.2.2 ++ [(src.pid, dst.pid)])
      else connGo f rest (st.1, st.2.1 ++ [s], st.2.2.1, st.2.2.2)

/-- `Field._connect_processes`: add every enabled process as a graph node
and clear its edge lists, then wire every stream through `connGo`. -/
def connectProcesses (f : OpField) :
    Except Nat (OpField × List Nat × List (Nat × Nat)) :=
  match connGo f f.strms
      (clearEnabled f.procs, [], (f.enabledList).foldl addNode [], []) with
  | .error e => .error e
  | .ok (procs, strms, nodes, edges) =>
      .ok ({ f with procs := procs, strms := strms }, nodes, edges)

/-- Membership in `addNode`. -/
theorem addNode_mem (nodes : List Nat) (y x : Nat) :
    x ∈ addNode nodes y ↔ x ∈ nodes ∨ x = y := by
  unfold addNode
  by_cases h : y ∈ nodes
  · rw [if_pos h]
    constructor
    · exact Or.inl
    · rintro (hx | rfl)
      · exact hx
      · exact h
  · rw [if_neg h]
    simp

/-- Membership in a fold of `addNode`s. -/
theorem addNode_foldl_mem : ∀ (l acc : List Nat) (x : Nat),
    x ∈ l.foldl addNode acc ↔ x ∈ acc ∨ x ∈ l := by
  intro l
  induction l with
  | nil => intro acc x; simp
  | cons y ys ih =>
      intro acc x
      simp only [List.foldl_cons]
      rw [ih, addNode_mem]
      constructor
      · rintro ((h | h) | h)
        · exact Or.inl h
        · exact Or.inr (by simp [h])
        · exact Or.inr (List.mem_cons_of_mem _ h)
      · rintro (h | h)
        · exact Or.inl (Or.inl h)
        · rcases List.mem_cons.mp h with h' | h'
          · exact Or.inl (Or.inr h')
          · exact Or.inr h'

/-- A found process bears the looked-up name. -/
theorem findProc_pid {f : OpField} {p : Nat} {pr : ProcSt}
    (h : f.findProc p = some pr) : pr.pid = p := by
  have := List.find?_some h
  simpa using this

/-- `find?` by pid commutes with a pid-preserving map. -/
theorem findIn_map_pid {g : ProcSt → ProcSt} (hg : ∀ q, (g q).pid = q.pid)
    (ps : List ProcSt) (p : Nat) :
    (ps.map g).find? (fun q => q.pid == p)
      = (ps.find? (fun q => q.pid == p)).map g := by
  induction ps with
  | nil => rfl
  | cons a l ih =>
      by_cases h : (a.pid == p) = true
      · rw [List.map_cons,
          @List.find?_cons_of_pos _ (fun q => q.pid == p) (g a) (List.map g l)
            (by simp only []; rw [hg a]; exact h),
          @List.find?_cons_of_pos _ (fun q => q.pid == p) a l h]
        rfl
      · rw [List.map_cons,
          @List.find?_cons_of_neg _ (fun q => q.pid == p) (g a) (List.map g l)
            (by simp only []; rw [hg a]; exact h),
          @List.find?_cons_of_neg _ (fun q => q.pid == p) a l h]
        exact ih

/-- The wiring loop fails precisely when some enabled stream names an
endpoint process that does not exist. -/
theorem connGo_error_iff (f : OpField) :
    ∀ (ss : List StrmSt) (st : List ProcSt × List StrmSt × List Nat × List (Nat × Nat)),
      (∃ e, f.connGo ss st = .error e) ↔
      (∃ s ∈ ss, s.enabled = true ∧
        (f.findProc s.src_name = none ∨ f.findProc s.dst_name = none)) := by
  intro ss
  induction ss with
  | nil =>
      intro st
      constructor
      · rintro ⟨e, he⟩; cases he
      · rintro ⟨s, hs, _⟩; cases hs
  | cons s rest ih =>
      intro st
      by_cases hse : s.enabled = true
      · cases hsrc : f.findProc s.src_name with
        | none =>
            constructor
            · intro _
              exact ⟨s, List.mem_cons_self .., hse, Or.inl hsrc⟩
            · intro _
              refine ⟨s.src_name, ?_⟩
              simp only [connGo, hse, if_true, hsrc]
        | some src =>
            cases hdst : f.findProc s.dst_name with
            | none =>
                constructor
                · intro _
                  exact ⟨s, List.mem_cons_self .., hse, Or.inr hdst⟩
                · intro _
                  refine ⟨s.dst_name, ?_⟩
                  simp only [connGo, hse, if_true, hsrc, hdst]
            | some dst =>
                have hstep : ∀ st', f.connGo (s :: rest) st'
                    = f.connGo rest
                      (addInput (addOutput st'.1 src.pid s.sid) dst.pid s.sid,
                       st'.2.1 ++ [{ s with src_proc := some src.pid,
                                            dst_proc := some dst.pid }],
                       addNode (addNode st'.2.2.1 src.pid) dst.pid,
                       st'.2.2.2 ++ [(src.pid, dst.pid)]) := by
                  intro st'
                  simp only [connGo, hse, if_true, hsrc, hdst]
                rw [hstep st, ih]
                constructor
                · rintro ⟨s', hs', hcond⟩
                  exact ⟨s', List.mem_cons_of_mem _ hs', hcond⟩
                · rintro ⟨s', hs', hen', hcond⟩
                  rcases List.mem_cons.mp hs' with h | h
                  · subst h
                    rcases hcond with h' | h'
                    · rw [hsrc] at h'; cases h'
                    · rw [hdst] at h'; cases h'
                  · exact ⟨s', h, hen', hcond⟩
      · have hstep : ∀ st', f.connGo (s :: rest) st'
            = f.connGo rest (st'.1, st'.2.1 ++ [s], st'.2.2.1, st'.2.2.2) := by
          intro st'
          simp only [connGo, hse, Bool.false_eq_true, if_false]
        rw [hstep st, ih]
        constructor
        · rintro ⟨s', hs', hcond⟩
          exact ⟨s', List.mem_cons_of_mem _ hs', hcond⟩
        · rintro ⟨s', hs', hen', hcond⟩
          rcases List.mem_cons.mp hs' with h | h
          · subst h; exact absurd hen' hse
          · exact ⟨s', h, hen', hcond⟩

/-- The pid of a conditionally-updated process record is unchanged when the
update preserves it. -/
theorem pid_ite (c : Prop) [Decidable c] (r q : ProcSt) (hr : r.pid = q.pid) :
    (if c then r else q).pid = q.pid := by
  split
  · exact hr
  · rfl

/-- The endpoint resolution `_connect_processes` performs on an enabled
stream, once lookups are known to succeed: the stored references are the
endpoint names themselves. -/
def resolveStream (s : StrmSt) : StrmSt :=
  if s.enabled then { s with src_proc := some s.src_name, dst_proc := some s.dst_name }
  else s

/-- What a successful wiring run produces: the streams with resolved
references in order, the nodes grown by the endpoints of enabled streams,
one edge per enabled stream, and — for every process reachable by name in
the threaded list — its input/output lists grown by exactly the enabled
streams that end/start at it, in stream order. -/
theorem connGo_ok_spec (f : OpField) :
    ∀ (ss : List StrmSt) (st out : List ProcSt × List StrmSt × List Nat × List (Nat × Nat)),
      f.connGo ss st = .ok out →
      (out.2.1 = st.2.1 ++ ss.map resolveStream)
      ∧ (∀ x, x ∈ out.2.2.1 ↔ x ∈ st.2.2.1 ∨
          ∃ s ∈ ss, s.enabled = true ∧ (s.src_name = x ∨ s.dst_name = x))
      ∧ (out.2.2.2 = st.2.2.2 ++
          (ss.filter (·.enabled)).map (fun s => (s.src_name, s.dst_name)))
      ∧ (∀ p pr, st.1.find? (fun q => q.pid == p) = some pr →
          out.1.find? (fun q => q.pid == p) = some { pr with
            inputs := pr.inputs ++
              ((ss.filter (fun s => s.enabled && s.dst_name == p)).map (·.sid)),
            outputs := pr.outputs ++
              ((ss.filter (fun s => s.enabled && s.src_name == p)).map (·.sid)) }) := by
  intro ss
  induction ss with
  | nil =>
      intro st out heq
      injection heq with h
      subst h
      refine ⟨by simp, fun x => by simp, by simp, ?_⟩
      intro p pr hfind
      simpa using hfind
  | cons s rest ih =>
      intro st out heq
      by_cases hse : s.enabled = true
      · cases hsrc : f.findProc s.src_name with
        | none =>
            simp only [connGo, hse, if_true, hsrc] at heq
            cases heq
        | some src =>
            cases hdst : f.findProc s.dst_name with
            | none =>
                simp only [connGo, hse, if_true, hsrc, hdst] at heq
                cases heq
            | some dst =>
                have hsp := findProc_pid hsrc
                have hdp := findProc_pid hdst
                rw [show f.connGo (s :: rest) st
                    = f.connGo rest
                      (addInput (addOutput st.1 s.src_name s.sid) s.dst_name s.sid,
                       st.2.1 ++ [{ s with src_proc := some s.src_name,
                                           dst_proc := some s.dst_name }],
                       addNode (addNode st.2.2.1 s.src_name) s.dst_name,
                       st.2.2.2 ++ [(s.src_name, s.dst_name)]) by
                  simp only [connGo, hse, if_true, hsrc, hdst, hsp, hdp]] at heq
                obtain ⟨hstrms, hnodes, hedges, hprocs⟩ := ih _ out heq
                refine ⟨?_, ?_, ?_, ?_⟩
                · rw [hstrms]
                  simp [resolveStream, hse]
                · intro x
                  rw [hnodes x]
                  simp only [addNode_mem]
                  constructor
                  · rintro (((h | h) | h) | ⟨s', hs', hcond⟩)
                    · exact Or.inl h
                    · exact Or.inr ⟨s, List.mem_cons_self .., hse, Or.inl h.symm⟩
                    · exact Or.inr ⟨s, List.mem_cons_self .., hse, Or.inr h.symm⟩
                    · exact Or.inr ⟨s', List.mem_cons_of_mem _ hs', hcond⟩
                  · rintro (h | ⟨s', hs', hen', hcond⟩)
                    · exact Or.inl (Or.inl (Or.inl h))
                    · rcases List.mem_cons.mp hs' with h' | h'
                      · subst h'
                        rcases hcond with h'' | h''
                        · exact Or.inl (Or.inl (Or.inr h''.symm))
                        · exact Or.inl (Or.inr h''.symm)
                      · exact Or.inr ⟨s', h', hen', hcond⟩
                · rw [hedges]
                  simp [List.filter_cons, hse]
                · intro p pr hfind
                  have hprp : pr.pid = p := by
                    have := List.find?_some hfind
                    simpa using this
                  have hfind2 : (addInput (addOutput st.1 s.src_name s.sid)
                      s.dst_name s.sid).find? (fun q => q.pid == p)
                      = some (
                        (fun q => if q.pid == s.dst_name
                          then { q with inputs := q.inputs ++ [s.sid] } else q)
                        ((fun q => if q.pid == s.src_name
                          then { q with outputs := q.outputs ++ [s.sid] } else q)
                          pr)) := by
                    have hgIn : ∀ q : ProcSt,
                        ((fun p => if p.pid == s.dst_name
                          then { p with inputs := p.inputs ++ [s.sid] } else p) q).pid
                          = q.pid :=
                      fun q => pid_ite _ _ q rfl
                    have hgOut : ∀ q : ProcSt,
                        ((fun p => if p.pid == s.src_name
                          then { p with outputs := p.outputs ++ [s.sid] } else p) q).pid
                          = q.pid :=
                      fun q => pid_ite _ _ q rfl
                    unfold addInput addOutput
                    rw [findIn_map_pid hgIn, findIn_map_pid hgOut, hfind]
                    rfl
                  have hout := hprocs p _ hfind2
                  rw [hout]
                  simp only [hprp]
                  by_cases hdpp : s.dst_name = p
                  · subst hdpp
                    by_cases hspp : s.src_name = s.dst_name
                    · simp [List.filter_cons, hse, hspp, hprp]
                    · have h1 : (s.dst_name == s.src_name) = false := by
                        simp only [beq_eq_false_iff_ne, ne_eq]
                        exact fun h => hspp h.symm
                      have h2 : (s.src_name == s.dst_name) = false := by
                        simp only [beq_eq_false_iff_ne, ne_eq]
                        exact hspp
                      have h3 : ¬ s.dst_name = s.src_name := fun h => hspp h.symm
                      simp [List.filter_cons, hse, h1, h2, h3, hspp, hprp]
                  · have h1 : (s.dst_name == p) = false := by
                      simp only [beq_eq_false_iff_ne, ne_eq]
                      exact hdpp
                    have h1b : (p == s.dst_name) = false := by
                      simp only [beq_eq_false_iff_ne, ne_eq]
                      exact fun h => hdpp h.symm
                    have h1c : ¬ p = s.dst_name := fun h => hdpp h.symm
                    by_cases hspp : s.src_name = p
                    · subst hspp
                      simp [List.filter_cons, hse, h1, h1b, h1c, hdpp, hprp]
                    · have h2 : (s.src_name == p) = false := by
                        simp only [beq_eq_false_iff_ne, ne_eq]
                        exact hspp
                      have h2b : (p == s.src_name) = false := by
                        simp only [beq_eq_false_iff_ne, ne_eq]
                        exact fun h => hspp h.symm
                      have h2c : ¬ p = s.src_name := fun h => hspp h.symm
                      simp [List.filter_cons, hse, h1, h1b, h1c, h2, h2b, h2c,
                        hdpp, hspp, hprp]
      · rw [show f.connGo (s :: rest) st
            = f.connGo rest (st.1, st.2.1 ++ [s], st.2.2.1, st.2.2.2) by
          simp only [connGo, hse, Bool.false_eq_true, if_false]] at heq
        obtain ⟨hstrms, hnodes, hedges, hprocs⟩ := ih _ out heq
        have hseb : s.enabled = false := by
          rw [Bool.not_eq_true] at hse
          exact hse
        refine ⟨?_, ?_, ?_, ?_⟩
        · rw [hstrms]
          simp [resolveStream, hseb]
        · intro x
          rw [hnodes x]
          constructor
          · rintro (h | ⟨s', hs', hcond⟩)
            · exact Or.inl h
            · exact Or.inr ⟨s', List.mem_cons_of_mem _ hs', hcond⟩
          · rintro (h | ⟨s', hs', hen', hcond⟩)
            · exact Or.inl h
            · rcases List.mem_cons.mp hs' with h' | h'
              · subst h'
                rw [hseb] at hen'
                cases hen'
              · exact Or.inr ⟨s', h', hen', hcond⟩
        · rw [hedges]
          simp [List.filter_cons, hseb]
        · intro p pr hfind
          have := hprocs p pr hfind
          rw [this]
          simp [List.filter_cons, hseb]

/-! ## Reset (`Field.reset_streams`) and validation helpers -/

/-- `Field.reset_streams`: every enabled stream one of whose endpoint
processes is disabled (or missing) is itself disabled; other streams are left
as they are.  (`stream.reset()` clears flow state, outside this model.) -/
def resetStreams (f : OpField) : OpField :=
  { f with
    strms := f.strms.map (fun s =>
      if s.enabled && !(f.enabledB s.src_name && f.enabledB s.dst_name) then
        { s with enabled := false }
      else s) }

/-- `Field._check_run_after_procs`: every enabled process tagged
`after="true"` may have output streams only to `run_after` processes. -/
def checkRunAfterOK (f : OpField) : Bool :=
  (f.enabledList).all (fun p =>
    !f.runAfterB p ||
      (f.succsOf p).all (fun q => (f.findProc q).elim true (·.run_after)))

/-! ## Validity of the stored cycle list

`self.cycles` is filled in `_after_init` from `nx.simple_cycles(self.graph)`.
The checker below certifies, for a concrete field, that the stored list is
exactly the set of simple cycles of the built graph, up to rotation. -/

/-- The node set of the built graph (enabled processes plus endpoints of
enabled streams), independent of the stateful build. -/
def graphNodes (f : OpField) : List Nat :=
  ((f.enabledList) ++
    (f.streamsEnabled).foldr (fun s acc => s.src_name :: s.dst_name :: acc) []).dedup

end OpField

/-- Whether `c` is a simple cycle of the edge list: nonempty, no repeated
node, every consecutive pair (wrapping around) an edge. -/
def isCycleList (edges : List (Nat × Nat)) (c : List Nat) : Bool :=
  !c.isEmpty && c.Nodup &&
    ((c.zip (c.drop 1 ++ c.take 1)).all (fun e => edges.contains e))

/-- Canonical representative of a cycle up to rotation: rotate the minimum
element to the front. -/
def minRot (c : List Nat) : List Nat :=
  let m := c.foldr Nat.min (c.headD 0)
  let i := List.indexOf m c
  c.drop i ++ c.take i

/-- Equality of two lists viewed as sets. -/
def listSetEq (l₁ l₂ : List (List Nat)) : Bool :=
  l₁.all (l₂.contains ·) && l₂.all (l₁.contains ·)

/-- All sublists of a list (structural recursion, so that concrete instances
reduce in the kernel). -/
def sublistsS : List Nat → List (List Nat)
  | [] => [[]]
  | x :: xs => sublistsS xs ++ (sublistsS xs).map (x :: ·)

/-- All ways to insert an element into a list. -/
def insertsS (x : Nat) : List Nat → List (List Nat)
  | [] => [[x]]
  | y :: ys => (x :: y :: ys) :: (insertsS x ys).map (y :: ·)

/-- All permutations of a list (structural recursion). -/
def permsS : List Nat → List (List Nat)
  | [] => [[]]
  | x :: xs => (permsS xs).flatMap (insertsS x)

namespace OpField

/-- The nodes that can lie on a cycle at all: those with at least one
outgoing and one incoming edge. -/
def cycleCandNodes (f : OpField) : List Nat :=
  (f.graphNodes).filter (fun x =>
    (f.graphEdges).any (fun e => e.1 == x) && (f.graphEdges).any (fun e => e.2 == x))

/-- Every simple cycle of the built graph, one representative each, found by
filtering the permutations of the subsets of candidate nodes (a cycle member
always has an outgoing and an incoming edge, so no cycle is missed). -/
def allSimpleCycles (f : OpField) : List (List Nat) :=
  ((((sublistsS f.cycleCandNodes)).flatMap permsS).filter
      (isCycleList f.graphEdges)).map minRot

/-- Certificate that the stored `cycles` list is exactly the set of simple
cycles of the built graph, up to rotation — what `nx.simple_cycles`
guarantees. -/
def cyclesSpecOK (f : OpField) : Bool :=
  (f.cycles).all (isCycleList f.graphEdges) &&
    listSetEq ((f.cycles.map minRot).dedup) ((f.allSimpleCycles).dedup)

/-! ## Backward reachability (specification side, for `_depends_on_cycle`) -/

/-- One backward step of the predecessor closure: add the predecessors of
every member. -/
def reachStep (f : OpField) (S : List Nat) : List Nat :=
  (S ++ S.flatMap (f.predsOf)).dedup

/-- The processes reachable from `p` by one or more backward (predecessor)
steps — the ancestors a backward walk from `p` can meet. -/
def backReachList (f : OpField) (p : Nat) : List Nat :=
  (f.reachStep)^[f.depFuel] (f.predsOf p)

/-- The single backward step as a relation: `b` is a predecessor of `a`. -/
def PredStep (f : OpField) (a b : Nat) : Prop := b ∈ f.predsOf a

/-- Genuine cycle ancestry of `p`, the spec's reading of "a backward walk
through input edges revisits some ancestor along a path": some node on the
backward walk from `p` (possibly `p` itself) lies on a predecessor cycle. -/
def genuineB (f : OpField) (p : Nat) : Bool :=
  (p :: f.backReachList p).any (fun q => (f.backReachList q).contains q)

/-! ## Projections of a graph build, used to state concrete facts about
`_connect_processes` runs -/

/-- The rebuilt field of a successful `_connect_processes` run
(`none` if the build fails with a lookup error). -/
def connectOnce (f : OpField) : Option OpField :=
  match f.connectProcesses with
  | .error _ => none
  | .ok (fo, _, _) => some fo

/-- Rebuild the graph twice in a row, as a second `_connect_processes`
call on an already connected field. -/
def connectTwice (f : OpField) : Option OpField :=
  match f.connectOnce with
  | none => none
  | some f1 => f1.connectOnce

/-- The node list of a successful graph build. -/
def connectNodes (f : OpField) : Option (List Nat) :=
  match f.connectProcesses with
  | .error _ => none
  | .ok (_, nodes, _) => some nodes

/-- The edge list of a successful graph build. -/
def connectEdges (f : OpField) : Option (List (Nat × Nat)) :=
  match f.connectProcesses with
  | .error _ => none
  | .ok (_, _, edges) => some edges

end OpField

/-! ## Concrete fields used as witnesses and counterexamples -/

/-- An enabled process with no special flags. -/
def mkProc (pid : Nat) (en : Bool) : ProcSt := { pid := pid, enabled := en }

/-- An enabled `after="true"` process. -/
def mkAfter (pid : Nat) : ProcSt := { pid := pid, enabled := true, run_after := true }

/-- An enabled `cycle-start="true"` process. -/
def mkStart (pid : Nat) : ProcSt := { pid := pid, enabled := true, cycle_start := true }

/-- An enabled stream with default flags. -/
def mkStrm (sid src dst : Nat) : StrmSt :=
  { sid := sid, src_name := src, dst_name := dst, enabled := true }

/-- A stream with explicit `impute` / `has_exogenous_data` flags. -/
def mkStrmX (sid src dst : Nat) (imp exo : Bool) : StrmSt :=
  { sid := sid, src_name := src, dst_name := dst, enabled := true,
    impute := imp, has_exogenous_data := exo }

/-- Two enabled `run_after` processes forming a 2-cycle; `cycles` is the
exact `nx.simple_cycles` output for this graph (certified by
`cyclesSpecOK`), and `_check_run_after_procs` accepts the field. -/
def exF1 : OpField :=
  { procs := [mkAfter 0, mkAfter 1], strms := [mkStrm 0 0 1, mkStrm 1 1 0],
    cycles := [[0, 1]], maximum_iterations := 10 }

/-- A diamond `0 → {1,2} → 3` plus a separate 2-cycle `{4,5}`; `cycles` is
the exact `nx.simple_cycles` output for this graph. -/
def exF3 : OpField :=
  { procs := [mkProc 0 true, mkProc 1 true, mkProc 2 true, mkProc 3 true,
              mkProc 4 true, mkProc 5 true],
    strms := [mkStrm 0 0 1, mkStrm 1 0 2, mkStrm 2 1 3, mkStrm 3 2 3,
              mkStrm 4 4 5, mkStrm 5 5 4],
    cycles := [[4, 5]], maximum_iterations := 10 }

/-- `exF3` extended with a node 6 genuinely downstream of the 2-cycle
(`4 → 6`); `cycles` is still the exact `nx.simple_cycles` output. -/
def exF3b : OpField :=
  { procs := [mkProc 0 true, mkProc 1 true, mkProc 2 true, mkProc 3 true,
              mkProc 4 true, mkProc 5 true, mkProc 6 true],
    strms := [mkStrm 0 0 1, mkStrm 1 0 2, mkStrm 2 1 3, mkStrm 3 2 3,
              mkStrm 4 4 5, mkStrm 5 5 4, mkStrm 6 4 6],
    cycles := [[4, 5]], maximum_iterations := 10 }

/-- An independent chain `0 → 1` feeding a 2-cycle `{2,3}` started at 2,
feeding a cycle-dependent node 4, plus an isolated `run_after` node 5. -/
def exF5 : OpField :=
  { procs := [mkProc 0 true, mkProc 1 true, mkStart 2, mkProc 3 true,
              mkProc 4 true, mkAfter 5],
    strms := [mkStrm 0 0 1, mkStrm 1 1 2, mkStrm 2 2 3, mkStrm 3 3 2,
              mkStrm 4 3 4],
    cycles := [[2, 3]], maximum_iterations := 5 }

/-- A 3-cycle `0 → 1 → 2 → 0` with an exogenous-data stream out of 2: the
imputation walk starts at 2 and walks the cycle upstream. -/
def exF7 : OpField :=
  { procs := [mkProc 0 true, mkProc 1 true, mkProc 2 true, mkProc 3 true],
    strms := [mkStrmX 0 0 1 true false, mkStrmX 1 1 2 true false,
              mkStrmX 2 2 0 true false, mkStrmX 3 2 3 true true],
    cycles := [[0, 1, 2]], maximum_iterations := 5 }

/-- Two processes both flagged `impute_start`. -/
def exF6multi : OpField :=
  { procs := [{ mkProc 0 true with impute_start := true },
              { mkProc 1 true with impute_start := true }],
    strms := [], cycles := [], maximum_iterations := 5 }

/-- No start flags and no exogenous-data streams. -/
def exF6noop : OpField :=
  { procs := [mkProc 0 true], strms := [], cycles := [], maximum_iterations := 5 }

/-- An exogenous-data start stream whose `impute` flag is unset. -/
def exF6bad : OpField :=
  { procs := [mkProc 0 true, mkProc 1 true],
    strms := [mkStrmX 0 0 1 false true], cycles := [], maximum_iterations := 5 }

/-- A disabled process 1 feeding the enabled process 0 through an enabled
stream: process 1's edge lists are never cleared by `_connect_processes`. -/
def exF9 : OpField :=
  { procs := [mkProc 0 true, mkProc 1 false], strms := [mkStrm 0 1 0],
    cycles := [], maximum_iterations := 5 }

/-- A disabled process 1 feeding the enabled process 0 (stream 0), and a
self-stream on the enabled process 0 (stream 1). -/
def exF10 : OpField :=
  { procs := [mkProc 0 true, mkProc 1 false],
    strms := [mkStrm 0 1 0, mkStrm 1 0 0], cycles := [], maximum_iterations := 5 }

/-- A declared but disabled process 2 touched by no stream, and a declared
but disabled stream `1 → 0`: neither reaches the built graph. -/
def exF8 : OpField :=
  { procs := [mkProc 0 true, mkProc 1 true, mkProc 2 false],
    strms := [mkStrm 0 0 1, { mkStrm 1 1 0 with enabled := false }],
    cycles := [], maximum_iterations := 5 }

/-- A single enabled process and no streams: the smallest successful build. -/
def exF8w : OpField :=
  { procs := [mkProc 0 true], strms := [], cycles := [], maximum_iterations := 5 }

/-- A single enabled process with an enabled self-stream. -/
def exF9w : OpField :=
  { procs := [mkProc 0 true], strms := [mkStrm 0 0 0],
    cycles := [], maximum_iterations := 5 }

/-- The field `exF9w` after one graph build: the self-stream is resolved and
wired into process 0's lists. -/
def exF9wG1 : OpField :=
  { procs := [{ mkProc 0 true with inputs := [0], outputs := [0] }],
    strms := [{ mkStrm 0 0 0 with src_proc := some 0, dst_proc := some 0 }],
    cycles := [], maximum_iterations := 5 }

/-- The field `exF9w` after two graph builds (the same value as after one:
process 0 is enabled, so its lists are cleared before rewiring). -/
def exF9wG2 : OpField :=
  { procs := [{ mkProc 0 true with inputs := [0], outputs := [0] }],
    strms := [{ mkStrm 0 0 0 with src_proc := some 0, dst_proc := some 0 }],
    cycles := [], maximum_iterations := 5 }

namespace OpField

/-! ## Basic facts about the four partition predicates -/

/-- A `run_after` member is an enabled process. -/
theorem runAfterB_enabled {f : OpField} {pid : Nat} (h : f.runAfterB pid = true) :
    f.enabledB pid = true := by
  unfold runAfterB at h
  unfold enabledB
  cases hf : f.findProc pid <;> simp [hf] at h ⊢
  exact h.1

/-- An in-cycle member is an enabled process. -/
theorem inCycleB_enabled {f : OpField} {pid : Nat} (h : f.inCycleB pid = true) :
    f.enabledB pid = true := by
  unfold inCycleB at h
  exact (Bool.and_eq_true _ _ |>.mp h).2

/-- A cycle-dependent member is an enabled process. -/
theorem cycleDepB_enabled {f : OpField} {pid : Nat} (h : f.cycleDepB pid = true) :
    f.enabledB pid = true := by
  unfold cycleDepB at h
  simp only [Bool.and_eq_true] at h
  exact h.1.1.1

/-- A cycle-dependent member is not in `procs_in_cycles`. -/
theorem cycleDepB_notInCycle {f : OpField} {pid : Nat} (h : f.cycleDepB pid = true) :
    f.inCycleB pid = false := by
  unfold cycleDepB at h
  simp only [Bool.and_eq_true, Bool.not_eq_true'] at h
  exact h.1.1.2

/-- An enabled process id is listed in `Field.processes()`. -/
theorem enabledB_mem {f : OpField} {pid : Nat} (h : f.enabledB pid = true) :
    pid ∈ f.enabledList := by
  unfold enabledB at h
  cases hf : f.findProc pid with
  | none => rw [hf] at h; cases h
  | some p =>
      rw [hf] at h
      simp only [Option.elim_some] at h
      have hmem : p ∈ f.procs := List.mem_of_find?_eq_some hf
      have hpid : p.pid = pid := by
        have := List.find?_some hf
        simpa using this
      unfold enabledList
      rw [List.mem_dedup]
      exact List.mem_map.mpr ⟨p, List.mem_filter.mpr ⟨hmem, h⟩, hpid⟩

/-- C1 (amended): the four sets produced by `_compute_graph_sections` always
union to exactly the enabled processes, `cycle_independent` is disjoint from
the other three, and `procs_in_cycles` is disjoint from `cycle_dependent`;
the `run_afters` set, however, is only disjoint from the two cycle sets when
no enabled `run_after` process is in a cycle or depends on one. -/
theorem c1_partition (f : OpField) (pid : Nat) :
    ((f.indepB pid || f.inCycleB pid || f.cycleDepB pid || f.runAfterB pid)
        = f.enabledB pid)
    ∧ ¬(f.indepB pid = true ∧ f.inCycleB pid = true)
    ∧ ¬(f.indepB pid = true ∧ f.cycleDepB pid = true)
    ∧ ¬(f.indepB pid = true ∧ f.runAfterB pid = true)
    ∧ ¬(f.inCycleB pid = true ∧ f.cycleDepB pid = true)
    ∧ ((∀ q ∈ f.enabledList,
          ¬(f.runAfterB q = true ∧ (f.inCycleB q = true ∨ f.cycleDepB q = true))) →
        ¬(f.inCycleB pid = true ∧ f.runAfterB pid = true)
        ∧ ¬(f.cycleDepB pid = true ∧ f.runAfterB pid = true)) := by
  refine ⟨?_, ?_, ?_, ?_, ?_, ?_⟩
  · unfold indepB
    cases hi : f.inCycleB pid
    · cases hd : f.cycleDepB pid
      · cases hr : f.runAfterB pid
        · simp
        · simp [runAfterB_enabled hr]
      · simp [cycleDepB_enabled hd]
    · simp [inCycleB_enabled hi]
  · rintro ⟨h1, h2⟩
    unfold indepB at h1
    simp [h2] at h1
  · rintro ⟨h1, h2⟩
    unfold indepB at h1
    simp [h2] at h1
  · rintro ⟨h1, h2⟩
    unfold indepB at h1
    simp [h2] at h1
  · rintro ⟨h1, h2⟩
    rw [cycleDepB_notInCycle h2] at h1
    cases h1
  · intro H
    constructor
    · rintro ⟨h1, h2⟩
      exact H pid (enabledB_mem (inCycleB_enabled h1)) ⟨h2, Or.inl h1⟩
    · rintro ⟨h1, h2⟩
      exact H pid (enabledB_mem (cycleDepB_enabled h1)) ⟨h2, Or.inr h1⟩

/-- Witness for `c1_partition` at the concrete field `exF5`, whose
`run_after` node is neither in a cycle nor cycle-dependent. -/
theorem c1_partition_witness :
    (∀ q ∈ exF5.enabledList,
        ¬(exF5.runAfterB q = true ∧ (exF5.inCycleB q = true ∨ exF5.cycleDepB q = true)))
    ∧ (¬(exF5.inCycleB 3 = true ∧ exF5.runAfterB 3 = true)
        ∧ ¬(exF5.cycleDepB 3 = true ∧ exF5.runAfterB 3 = true)) :=
  ⟨by decide, (c1_partition exF5 3).2.2.2.2.2 (by decide)⟩

/-- C1 counterexample: in `exF1` — two enabled `run_after` processes forming
a 2-cycle, accepted by `_check_run_after_procs`, with `cycles` certified to
be exactly the simple cycles of the graph — process 0 lies in both
`procs_in_cycles` and `run_afters`, so the four sets are not pairwise
disjoint. -/
theorem c1_counterexample :
    exF1.cyclesSpecOK = true ∧ exF1.checkRunAfterOK = true ∧
    exF1.inCycleB 0 = true ∧ exF1.runAfterB 0 = true := by decide

/-! ## C6: start-node determination of `_impute` -/

/-- C6: `_impute` errors on a start stream whose `impute` flag is unset,
no-ops when the start set is empty, and fails naming the start set when it
holds more than one process. -/
theorem c6_impute_start (f : OpField) :
    ((∃ s ∈ f.findStartStreams, s.impute = false) →
        ∃ sid, f.imputeRun = .startStreamNotImpute sid)
    ∧ ((∀ s ∈ f.findStartStreams, s.impute = true) →
        (f.startSet = [] → f.imputeRun = .noop)
        ∧ (2 ≤ f.startSet.length → f.imputeRun = .multipleStart f.startSet)) := by
  constructor
  · rintro ⟨s, hs, hsi⟩
    cases hf : (f.findStartStreams).find? (fun s => !s.impute) with
    | none =>
        rw [List.find?_eq_none] at hf
        have := hf s hs
        simp [hsi] at this
    | some s' =>
        refine ⟨s'.sid, ?_⟩
        unfold imputeRun
        rw [hf]
  · intro hall
    have hf : (f.findStartStreams).find? (fun s => !s.impute) = none := by
      rw [List.find?_eq_none]
      intro s hs
      simp [hall s hs]
    constructor
    · intro hempty
      unfold imputeRun
      rw [hf, hempty]
    · intro hlen
      unfold imputeRun
      rw [hf]
      cases hset : f.startSet with
      | nil => rw [hset] at hlen; simp at hlen
      | cons a t =>
          cases t with
          | nil => rw [hset] at hlen; simp at hlen
          | cons b t' => rfl

/-- Witness for `c6_impute_start`: the error case at `exF6bad` (start stream
with `impute` unset), the no-op case at `exF6noop`, and the multiple-start
error at `exF6multi`, naming both offending processes. -/
theorem c6_impute_start_witness :
    exF6bad.imputeRun = .startStreamNotImpute 0
    ∧ exF6noop.imputeRun = .noop
    ∧ exF6multi.imputeRun = .multipleStart [0, 1] := by
  refine ⟨?_, ?_, ?_⟩
  · obtain ⟨sid, h⟩ := (c6_impute_start exF6bad).1
      ⟨mkStrmX 0 0 1 false true, by decide, by decide⟩
    have : sid = 0 := by
      have h2 : exF6bad.imputeRun = .startStreamNotImpute 0 := by decide
      rw [h] at h2
      cases h2
      rfl
    rwa [this] at h
  · exact (c6_impute_start exF6noop).2 (by decide) |>.1 (by decide)
  · have := (c6_impute_start exF6multi).2 (by decide) |>.2 (by decide)
    rwa [show exF6multi.startSet = [0, 1] by decide] at this

/-! ## C10: the reset-streams invariant -/

/-- C10: after `reset_streams`, every stream still enabled has an enabled
source process and an enabled destination process.  (The resolvability
hypothesis records that the endpoint references read by `reset_streams` were
resolved by `_connect_processes`; with an unresolvable endpoint the Python
attribute access would fail instead.) -/
theorem c10_reset_streams (f : OpField) (s : StrmSt)
    (hres : ∀ t ∈ f.strms, t.enabled = true →
        (f.findProc t.src_name).isSome ∧ (f.findProc t.dst_name).isSome)
    (hs : s ∈ (f.resetStreams).strms) (hen : s.enabled = true) :
    (f.resetStreams).enabledB s.src_name = true
    ∧ (f.resetStreams).enabledB s.dst_name = true := by
  have hproc : ∀ x, (f.resetStreams).enabledB x = f.enabledB x := fun _ => rfl
  unfold resetStreams at hs
  simp only [List.mem_map] at hs
  obtain ⟨t, ht, hgt⟩ := hs
  by_cases hcond : (t.enabled && !(f.enabledB t.src_name && f.enabledB t.dst_name)) = true
  · rw [if_pos hcond] at hgt
    rw [← hgt] at hen
    cases hen
  · rw [if_neg hcond] at hgt
    subst hgt
    rw [hen] at hcond
    simp only [Bool.true_and, Bool.not_eq_true', Bool.not_eq_false] at hcond
    rw [hproc, hproc]
    exact ⟨(Bool.and_eq_true _ _ |>.mp hcond).1, (Bool.and_eq_true _ _ |>.mp hcond).2⟩

/-- Witness for `c10_reset_streams`: in `exF10` the self-stream on the
enabled process 0 survives the reset and both its endpoints are enabled. -/
theorem c10_reset_streams_witness :
    mkStrm 1 0 0 ∈ (exF10.resetStreams).strms
    ∧ ((exF10.resetStreams).enabledB 0 = true ∧ (exF10.resetStreams).enabledB 0 = true) :=
  ⟨by decide, c10_reset_streams exF10 (mkStrm 1 0 0) (by decide) (by decide) (by decide)⟩

end OpField

/-! ## Behaviour of the convergence loop -/

/-- A pass in which no invocation signals convergence runs every ordered
node. -/
theorem runPass_all_false (behav : Nat → Nat → Bool) (pass : Nat)
    (ordered : List Nat) (h : ∀ q, behav pass q = false) :
    runPass behav pass ordered = (ordered, false) := by
  induction ordered with
  | nil => rfl
  | cons p ps ih =>
      unfold runPass
      rw [h p, ih]
      simp

/-- A pass whose first convergence signal is raised at `c` invokes exactly
the prefix up to and including `c` and reports convergence. -/
theorem runPass_find (behav : Nat → Nat → Bool) (pass : Nat)
    (pre post : List Nat) (c : Nat)
    (hpre : ∀ q ∈ pre, behav pass q = false) (hc : behav pass c = true) :
    runPass behav pass (pre ++ c :: post) = (pre ++ [c], true) := by
  induction pre with
  | nil => simp [runPass, hc]
  | cons p ps ih =>
      have hp : behav pass p = false := hpre p (List.mem_cons_self ..)
      have ih' := ih (fun q hq => hpre q (List.mem_cons_of_mem _ hq))
      simp only [List.cons_append, runPass, hp, List.append_eq, ih']
      simp

/-- With no convergence signal at all, the loop performs every remaining
pass in full and then raises `OpgeeMaxIterationsReached` with the ceiling. -/
theorem convGo_never (behav : Nat → Nat → Bool) (ordered : List Nat) (m : Nat)
    (h : ∀ k q, behav k q = false) :
    ∀ rem pass acc, convGo behav ordered m rem pass acc
      = (acc ++ (List.replicate rem ordered).flatten, some (.maxIter m)) := by
  intro rem
  induction rem with
  | zero => intro pass acc; simp [convGo]
  | succ r ih =>
      intro pass acc
      unfold convGo
      rw [runPass_all_false behav pass ordered (h pass)]
      simp only [Bool.false_eq_true, if_false]
      rw [ih (pass + 1) (acc ++ ordered)]
      simp [List.replicate_succ]

/-- Passes in which no convergence signal occurs are skipped over verbatim:
after `d` signal-free passes the loop state has advanced by `d`. -/
theorem convGo_skip (behav : Nat → Nat → Bool) (ordered : List Nat) (m : Nat) :
    ∀ d rem pass acc, (∀ j q, pass ≤ j → j < pass + d → behav j q = false) →
      d ≤ rem →
      convGo behav ordered m rem pass acc
        = convGo behav ordered m (rem - d) (pass + d)
            (acc ++ (List.replicate d ordered).flatten) := by
  intro d
  induction d with
  | zero => intro rem pass acc _ _; simp
  | succ e ih =>
      intro rem pass acc hall hle
      cases rem with
      | zero => omega
      | succ r =>
          conv_lhs => unfold convGo
          rw [runPass_all_false behav pass ordered
            (fun q => hall pass q (Nat.le_refl _) (by omega))]
          simp only [Bool.false_eq_true, if_false]
          rw [ih r (pass + 1) (acc ++ ordered)
            (fun j q h1 h2 => hall j q (by omega) (by omega)) (by omega)]
          have h1 : r - e = r + 1 - (e + 1) := by omega
          have h2 : pass + 1 + e = pass + (e + 1) := by omega
          rw [h1, h2, List.replicate_succ, List.flatten_cons, List.append_assoc]

/-- A pass that signals convergence ends the loop normally with the
truncated pass appended. -/
theorem convGo_conv (behav : Nat → Nat → Bool) (m : Nat)
    (pre post : List Nat) (c : Nat) (r pass : Nat) (acc : List Nat)
    (hpre : ∀ q ∈ pre, behav pass q = false) (hc : behav pass c = true) :
    convGo behav (pre ++ c :: post) m (r + 1) pass acc
      = (acc ++ (pre ++ [c]), none) := by
  unfold convGo
  rw [runPass_find behav pass pre post c hpre hc]
  simp

namespace OpField

/-- C2: when no node ever raises the convergence signal, `run_processes`
performs exactly `maximum_iterations` full passes over the ordered cyclic
node list (after the independent section) and then fails with
`OpgeeMaxIterationsReached` reporting that ceiling — the ceiling having been
read once for the whole run. -/
theorem c2_ceiling (f : OpField) (behav : Nat → Nat → Bool)
    (hb : ∀ k q, behav k q = false)
    (hok1 : (f.runSection f.indepList).2 = true)
    (hstarts : ((f.inCycleList).filter f.cycleStartB).length ≤ 1)
    (hcyc : (f.inCycleList).isEmpty = false) :
    f.runProcesses behav
      = ((f.runSection f.indepList).1
          ++ (List.replicate f.maximum_iterations
                (f.orderedCycle ((f.inCycleList).filter f.cycleStartB))).flatten,
         some (.maxIter f.maximum_iterations)) := by
  unfold runProcesses
  simp only [hok1, Bool.not_true, Bool.false_eq_true, if_false, hcyc]
  rw [if_neg (by omega)]
  unfold convLoop
  rw [convGo_never behav _ _ hb _ 1 []]
  simp

/-- C4: a convergence signal raised at node `c` of pass `k` (the first
signal of the run) stops that pass at `c` — the nodes after it are not
invoked —, ends the loop normally, and is not propagated: `run_processes`
continues with the cycle-dependent and `run_after` sections and returns
without error. -/
theorem c4_convergence_signal (f : OpField) (behav : Nat → Nat → Bool)
    (k : Nat) (pre post : List Nat) (c : Nat)
    (hk1 : 1 ≤ k) (hkm : k ≤ f.maximum_iterations)
    (hord : f.orderedCycle ((f.inCycleList).filter f.cycleStartB) = pre ++ c :: post)
    (hbefore : ∀ j q, j < k → behav j q = false)
    (hpre : ∀ q ∈ pre, behav k q = false)
    (hc : behav k c = true)
    (hok1 : (f.runSection f.indepList).2 = true)
    (hstarts : ((f.inCycleList).filter f.cycleStartB).length ≤ 1)
    (hcyc : (f.inCycleList).isEmpty = false)
    (hok3 : (f.runSection f.cycleDepList).2 = true)
    (hok4 : (f.runSection f.runAfterList).2 = true) :
    convLoop behav (f.orderedCycle ((f.inCycleList).filter f.cycleStartB))
        f.maximum_iterations
      = ((List.replicate (k - 1) (pre ++ c :: post)).flatten ++ (pre ++ [c]), none)
    ∧ f.runProcesses behav
      = ((f.runSection f.indepList).1
          ++ ((List.replicate (k - 1) (pre ++ c :: post)).flatten ++ (pre ++ [c]))
          ++ (f.runSection f.cycleDepList).1
          ++ (f.runSection f.runAfterList).1, none) := by
  have hloop : convLoop behav (f.orderedCycle ((f.inCycleList).filter f.cycleStartB))
      f.maximum_iterations
      = ((List.replicate (k - 1) (pre ++ c :: post)).flatten ++ (pre ++ [c]), none) := by
    unfold convLoop
    rw [hord]
    rw [convGo_skip behav _ _ (k - 1) f.maximum_iterations 1 []
      (fun j q h1 h2 => hbefore j q (by omega)) (by omega)]
    have hrem : f.maximum_iterations - (k - 1) = (f.maximum_iterations - k) + 1 := by
      omega
    have hpass : 1 + (k - 1) = k := by omega
    rw [hrem, hpass, convGo_conv behav _ pre post c _ k _ hpre hc]
    simp
  refine ⟨hloop, ?_⟩
  unfold runProcesses
  simp only [hok1, Bool.not_true, Bool.false_eq_true, if_false, hcyc]
  rw [if_neg (by omega)]
  rw [hloop]
  simp only [hok3, hok4, Bool.not_true, Bool.false_eq_true, if_false, if_true]

/-- Witness for `c2_ceiling` at `exF5` with ceiling 5 and nodes that never
converge: the run fails after exactly 5 full passes `[2, 3]`, reporting 5. -/
theorem c2_ceiling_witness :
    exF5.runProcesses (fun _ _ => false)
      = ((exF5.runSection exF5.indepList).1
          ++ (List.replicate exF5.maximum_iterations
                (exF5.orderedCycle ((exF5.inCycleList).filter exF5.cycleStartB))).flatten,
         some (.maxIter exF5.maximum_iterations))
    ∧ exF5.runProcesses (fun _ _ => false)
      = ([0, 1, 2, 3, 2, 3, 2, 3, 2, 3, 2, 3], some (.maxIter 5)) :=
  ⟨c2_ceiling exF5 (fun _ _ => false) (fun _ _ => rfl) (by decide) (by decide) (by decide),
   by decide⟩

/-! ## Membership and ordering lemmas for the scheduler -/

end OpField

/-- Every node emitted by `kahnP` comes from the accumulator or the
remaining set. -/
theorem kahnP_sub (edges : List (Nat × Nat)) :
    ∀ fuel rem acc, ∀ x ∈ (kahnP edges fuel rem acc).1, x ∈ acc ∨ x ∈ rem := by
  intro fuel
  induction fuel with
  | zero => intro rem acc x hx; exact Or.inl hx
  | succ n ih =>
      intro rem acc x hx
      unfold kahnP at hx
      by_cases hre : rem.isEmpty
      · rw [if_pos hre] at hx; exact Or.inl hx
      · rw [if_neg hre] at hx
        by_cases hrd : (readyNodes edges rem).isEmpty
        · rw [if_pos hrd] at hx; exact Or.inl hx
        · rw [if_neg hrd] at hx
          rcases ih _ _ x hx with h | h
          · rcases List.mem_append.mp h with h' | h'
            · exact Or.inl h'
            · exact Or.inr (List.mem_of_mem_filter h')
          · exact Or.inr (List.mem_of_mem_filter h)

/-- Ready nodes are remaining nodes. -/
theorem readyNodes_sub (edges : List (Nat × Nat)) (rem : List Nat) :
    ∀ x ∈ readyNodes edges rem, x ∈ rem :=
  fun _ hx => List.mem_of_mem_filter hx

/-- A ready node has no incoming edge from a remaining node. -/
theorem readyNodes_no_incoming (edges : List (Nat × Nat)) (rem : List Nat)
    {u v : Nat} (hv : v ∈ readyNodes edges rem) (he : (u, v) ∈ edges) :
    u ∉ rem := by
  intro hu
  have hp := List.of_mem_filter hv
  rw [Bool.not_eq_eq_eq_not, Bool.not_true, List.any_eq_false] at hp
  have := hp (u, v) he
  simp [hu] at this

/-- The leftover set equals the remaining nodes that are not ready. -/
theorem kahn_leftover (edges : List (Nat × Nat)) (rem : List Nat) :
    rem.filter (fun x => !(readyNodes edges rem).contains x)
      = rem.filter (fun x =>
          !(!edges.any (fun e => e.2 == x && rem.contains e.1))) := by
  apply List.filter_congr
  intro x hx
  by_cases hpx : (!edges.any (fun e => e.2 == x && rem.contains e.1)) = true
  · have hmem : x ∈ readyNodes edges rem := by
      unfold readyNodes
      exact List.mem_filter.mpr ⟨hx, hpx⟩
    have hc : (readyNodes edges rem).contains x = true := by simpa using hmem
    rw [hc, hpx]
  · have hmem : x ∉ readyNodes edges rem := by
      intro hm
      unfold readyNodes at hm
      exact hpx ((List.mem_filter.mp hm).2)
    have hc : (readyNodes edges rem).contains x = false := by simpa using hmem
    rw [hc]
    simp only [Bool.not_eq_true] at hpx
    rw [hpx]

/-- Emitted and leftover nodes together are a permutation of the remaining
nodes. -/
theorem kahn_perm (edges : List (Nat × Nat)) (rem : List Nat) :
    List.Perm
      (readyNodes edges rem ++ rem.filter (fun x => !(readyNodes edges rem).contains x))
      rem := by
  rw [kahn_leftover]
  exact List.filter_append_perm _ rem

/-- Invariant of Kahn's algorithm: on success the emitted order contains
exactly the accumulated and remaining nodes, and respects every edge whose
endpoints it contains.  The accumulator hypothesis states that the part
already emitted respects the edges and is never fed by a remaining node. -/
theorem kahnP_main (edges : List (Nat × Nat)) :
    ∀ fuel rem acc ord,
      kahnP edges fuel rem acc = (ord, true) →
      (acc ++ rem).Nodup →
      (∀ u v, (u, v) ∈ edges → v ∈ acc → (u ∈ acc ∨ u ∈ rem) →
          u ∈ acc ∧ List.indexOf u acc < List.indexOf v acc) →
      (∀ x, x ∈ ord ↔ (x ∈ acc ∨ x ∈ rem)) ∧
      (∀ u v, (u, v) ∈ edges → v ∈ ord → (u ∈ acc ∨ u ∈ rem) →
          u ∈ ord ∧ List.indexOf u ord < List.indexOf v ord) := by
  intro fuel
  induction fuel with
  | zero =>
      intro rem acc ord heq hnd hacc
      unfold kahnP at heq
      injection heq with h1 h2
      subst h1
      have hrem : rem = [] := by
        cases rem with
        | nil => rfl
        | cons a t => simp at h2
      subst hrem
      refine ⟨fun x => by simp, fun u v he hv hu => hacc u v he hv hu⟩
  | succ n ih =>
      intro rem acc ord heq hnd hacc
      unfold kahnP at heq
      by_cases hre : rem.isEmpty
      · rw [if_pos hre] at heq
        injection heq with h1 _
        subst h1
        have hrem : rem = [] := List.isEmpty_iff.mp hre
        subst hrem
        refine ⟨fun x => by simp, fun u v he hv hu => hacc u v he hv hu⟩
      · rw [if_neg hre] at heq
        by_cases hrd : (readyNodes edges rem).isEmpty
        · rw [if_pos hrd] at heq
          injection heq with _ h2
          cases h2
        · rw [if_neg hrd] at heq
          have hperm := kahn_perm edges rem
          have hnd' : ((acc ++ readyNodes edges rem)
              ++ rem.filter (fun x => !(readyNodes edges rem).contains x)).Nodup := by
            rw [List.append_assoc]
            exact ((hperm.symm).append_left acc).nodup hnd
          have hdisj := List.disjoint_of_nodup_append hnd
          have huor : ∀ u : Nat,
              (u ∈ acc ++ readyNodes edges rem
                ∨ u ∈ rem.filter (fun x => !(readyNodes edges rem).contains x)) →
              u ∈ acc ∨ u ∈ rem := by
            intro u hu
            rcases hu with hu | hu
            · rcases List.mem_append.mp hu with h | h
              · exact Or.inl h
              · exact Or.inr (readyNodes_sub edges rem u h)
            · exact Or.inr (List.mem_of_mem_filter hu)
          have hacc' : ∀ u v, (u, v) ∈ edges → v ∈ acc ++ readyNodes edges rem →
              (u ∈ acc ++ readyNodes edges rem
                ∨ u ∈ rem.filter (fun x => !(readyNodes edges rem).contains x)) →
              u ∈ acc ++ readyNodes edges rem
              ∧ List.indexOf u (acc ++ readyNodes edges rem)
                  < List.indexOf v (acc ++ readyNodes edges rem) := by
            intro u v he hv hu
            rcases List.mem_append.mp hv with hva | hvr
            · obtain ⟨hua, hidx⟩ := hacc u v he hva (huor u hu)
              refine ⟨List.mem_append_left _ hua, ?_⟩
              rw [List.indexOf_append_of_mem hua, List.indexOf_append_of_mem hva]
              exact hidx
            · have hurem : u ∉ rem := readyNodes_no_incoming edges rem hvr he
              have hua : u ∈ acc := by
                rcases huor u hu with h | h
                · exact h
                · exact absurd h hurem
              have hvrem : v ∈ rem := readyNodes_sub edges rem v hvr
              have hvna : v ∉ acc := fun hva => (hdisj hva) hvrem
              refine ⟨List.mem_append_left _ hua, ?_⟩
              rw [List.indexOf_append_of_mem hua,
                List.indexOf_append_of_not_mem hvna]
              have := List.indexOf_lt_length.mpr hua
              omega
          obtain ⟨hmem, hord⟩ := ih _ _ ord heq hnd' hacc'
          constructor
          · intro x
            rw [hmem x]
            constructor
            · intro h
              rcases h with h | h
              · rcases List.mem_append.mp h with h' | h'
                · exact Or.inl h'
                · exact Or.inr (readyNodes_sub edges rem x h')
              · exact Or.inr (List.mem_of_mem_filter h)
            · intro h
              rcases h with h | h
              · exact Or.inl (List.mem_append_left _ h)
              · rcases List.mem_append.mp (hperm.mem_iff.mpr h) with h' | h'
                · exact Or.inl (List.mem_append_right _ h')
                · exact Or.inr h'
          · intro u v he hv hu
            refine hord u v he hv ?_
            rcases hu with h | h
            · exact Or.inl (List.mem_append_left _ h)
            · rcases List.mem_append.mp (hperm.mem_iff.mpr h) with h' | h'
              · exact Or.inl (List.mem_append_right _ h')
              · exact Or.inr h'

/-- Correctness of the stand-in for `nx.topological_sort`: on success, for
every edge `(u, v)` with both endpoints among the sorted nodes, `u` is
emitted strictly before `v`. -/
theorem topoSortP_order (edges : List (Nat × Nat)) (nodes ord : List Nat)
    (hn : nodes.Nodup) (h : topoSortP edges nodes = (ord, true))
    (u v : Nat) (he : (u, v) ∈ edges) (hu : u ∈ nodes) (hv : v ∈ nodes) :
    u ∈ ord ∧ List.indexOf u ord < List.indexOf v ord := by
  obtain ⟨hmem, hord⟩ := kahnP_main edges nodes.length nodes [] ord h
    (by simpa using hn) (by intro u v _ hv _; simp at hv)
  exact hord u v he ((hmem v).mpr (Or.inr hv)) (Or.inr hu)

/-- Every node invoked in a pass is a member of the ordered list. -/
theorem runPass_sub (behav : Nat → Nat → Bool) (pass : Nat) :
    ∀ ordered, ∀ x ∈ (runPass behav pass ordered).1, x ∈ ordered := by
  intro ordered
  induction ordered with
  | nil => intro x hx; exact absurd hx (by simp [runPass])
  | cons p ps ih =>
      intro x hx
      unfold runPass at hx
      by_cases hb : behav pass p = true
      · rw [if_pos hb] at hx
        simp at hx
        simp [hx]
      · rw [if_neg hb] at hx
        simp only [List.mem_cons] at hx
        rcases hx with h | h
        · simp [h]
        · exact List.mem_cons_of_mem _ (ih x h)

/-- Every node invoked by the convergence loop is in the accumulated trace
or the ordered cyclic list. -/
theorem convGo_sub (behav : Nat → Nat → Bool) (ordered : List Nat) (m : Nat) :
    ∀ rem pass acc, ∀ x ∈ (convGo behav ordered m rem pass acc).1,
      x ∈ acc ∨ x ∈ ordered := by
  intro rem
  induction rem with
  | zero => intro pass acc x hx; exact Or.inl hx
  | succ r ih =>
      intro pass acc x hx
      unfold convGo at hx
      by_cases hcv : (runPass behav pass ordered).2 = true
      · rw [if_pos hcv] at hx
        rcases List.mem_append.mp hx with h | h
        · exact Or.inl h
        · exact Or.inr (runPass_sub behav pass ordered x h)
      · rw [if_neg hcv] at hx
        rcases ih _ _ x hx with h | h
        · rcases List.mem_append.mp h with h' | h'
          · exact Or.inl h'
          · exact Or.inr (runPass_sub behav pass ordered x h')
        · exact Or.inr h

namespace OpField

/-- `runSection` invokes only members of the section. -/
theorem runSection_sub (f : OpField) (s : List Nat) :
    ∀ x ∈ (f.runSection s).1, x ∈ s := by
  intro x hx
  unfold runSection at hx
  by_cases he : s.isEmpty
  · rw [if_pos he] at hx; exact absurd hx (by simp)
  · rw [if_neg he] at hx
    rcases kahnP_sub _ _ _ _ x hx with h | h
    · exact absurd h (by simp)
    · exact h

/-- The successor walk only removes from the unvisited set and only appends
removed members to the order. -/
theorem walkSucc_sub (f : OpField) :
    ∀ fuel p st,
      (∀ x ∈ (f.walkSucc fuel p st).1, x ∈ st.1) ∧
      (∀ x ∈ (f.walkSucc fuel p st).2, x ∈ st.2 ∨ x ∈ st.1) := by
  intro fuel
  induction fuel with
  | zero => intro p st; exact ⟨fun x h => h, fun x h => Or.inl h⟩
  | succ n ih =>
      intro p st
      obtain ⟨unvis, ord⟩ := st
      unfold walkSucc
      by_cases hp : p ∈ unvis
      · rw [if_pos hp]
        have hfold : ∀ (l : List Nat) (st₀ : List Nat × List Nat),
            (∀ x ∈ (l.foldl (fun st s => f.walkSucc n s st) st₀).1, x ∈ st₀.1) ∧
            (∀ x ∈ (l.foldl (fun st s => f.walkSucc n s st) st₀).2,
              x ∈ st₀.2 ∨ x ∈ st₀.1) := by
          intro l
          induction l with
          | nil => intro st₀; exact ⟨fun x h => h, fun x h => Or.inl h⟩
          | cons s ss ihs =>
              intro st₀
              simp only [List.foldl_cons]
              refine ⟨fun x hx => (ih s st₀).1 x ((ihs _).1 x hx), fun x hx => ?_⟩
              rcases (ihs _).2 x hx with h | h
              · exact (ih s st₀).2 x h
              · exact Or.inr ((ih s st₀).1 x h)
        refine ⟨fun x hx => ?_, fun x hx => ?_⟩
        · exact List.mem_of_mem_erase ((hfold _ _).1 x hx)
        · rcases (hfold _ _).2 x hx with h | h
          · rcases List.mem_append.mp h with h' | h'
            · exact Or.inl h'
            · have : x = p := by simpa using h'
              subst this
              exact Or.inr hp
          · exact Or.inr (List.mem_of_mem_erase h)
      · rw [if_neg hp]
        exact ⟨fun x h => h, fun x h => Or.inl h⟩

/-- The ordered cyclic node list contains only `procs_in_cycles` members. -/
theorem orderedCycle_sub (f : OpField) (starts : List Nat) :
    ∀ x ∈ f.orderedCycle starts, x ∈ f.inCycleList := by
  intro x hx
  match starts with
  | [] => exact hx
  | start :: b :: t => exact hx
  | [start] =>
      unfold orderedCycle at hx
      set fuel := (f.inCycleList).length + 2 with hfuel
      set st1 := f.walkSucc fuel start (f.inCycleList, []) with hst1
      have hst1a : ∀ y ∈ st1.1, y ∈ f.inCycleList :=
        fun y hy => (walkSucc_sub f fuel start _).1 y hy
      have hst1b : ∀ y ∈ st1.2, y ∈ f.inCycleList := by
        intro y hy
        rcases (walkSucc_sub f fuel start _).2 y hy with h | h
        · exact absurd h (by simp)
        · exact h
      have hfold : ∀ (l : List Nat) (st₀ : List Nat × List Nat),
          (∀ y ∈ st₀.1, y ∈ f.inCycleList) → (∀ y ∈ st₀.2, y ∈ f.inCycleList) →
          ∀ y ∈ (l.foldl (fun st o => f.walkSucc fuel o st) st₀).2,
            y ∈ f.inCycleList := by
        intro l
        induction l with
        | nil => intro st₀ h1 h2 y hy; exact h2 y hy
        | cons o os ihs =>
            intro st₀ h1 h2 y hy
            simp only [List.foldl_cons] at hy
            refine ihs _ ?_ ?_ y hy
            · exact fun z hz => h1 z ((walkSucc_sub f fuel o st₀).1 z hz)
            · intro z hz
              rcases (walkSucc_sub f fuel o st₀).2 z hz with h | h
              · exact h2 z h
              · exact h1 z h
      exact hfold st1.1 st1 hst1a hst1b x hx

/-- The full invocation trace of `run_processes` splits into four segments,
one per partition, in the fixed order independent → in-cycle →
cycle-dependent → `run_after`. -/
theorem runProcesses_decomp (f : OpField) (behav : Nat → Nat → Bool) :
    ∃ t1 t2 t3 t4 err,
      f.runProcesses behav = (t1 ++ (t2 ++ (t3 ++ t4)), err)
      ∧ (∀ x ∈ t1, x ∈ f.indepList) ∧ (∀ x ∈ t2, x ∈ f.inCycleList)
      ∧ (∀ x ∈ t3, x ∈ f.cycleDepList) ∧ (∀ x ∈ t4, x ∈ f.runAfterList) := by
  have hT1 := f.runSection_sub f.indepList
  have hT3 := f.runSection_sub f.cycleDepList
  have hT4 := f.runSection_sub f.runAfterList
  have hT2 : ∀ x ∈ (convLoop behav
      (f.orderedCycle ((f.inCycleList).filter f.cycleStartB)) f.maximum_iterations).1,
      x ∈ f.inCycleList := by
    intro x hx
    rcases convGo_sub behav _ _ _ _ _ x hx with h | h
    · exact absurd h (by simp)
    · exact f.orderedCycle_sub _ x h
  unfold runProcesses
  by_cases h1 : (f.runSection f.indepList).2 = true
  swap
  · rw [Bool.not_eq_true] at h1
    simp only [h1, Bool.not_false, if_true]
    exact ⟨(f.runSection f.indepList).1, [], [], [], some .topoFail, by simp, hT1,
      by simp, by simp, by simp⟩
  simp only [h1, Bool.not_true, Bool.false_eq_true, if_false]
  by_cases hst : ((f.inCycleList).filter f.cycleStartB).length > 1
  · simp only [if_pos hst]
    exact ⟨(f.runSection f.indepList).1, [], [], [],
      some (.multiStart ((f.inCycleList).filter f.cycleStartB).length), by simp, hT1,
      by simp, by simp, by simp⟩
  simp only [if_neg hst]
  by_cases hemp : (f.inCycleList).isEmpty
  · simp only [hemp, if_true]
    by_cases h3 : (f.runSection f.cycleDepList).2 = true
    swap
    · rw [Bool.not_eq_true] at h3
      simp only [h3, Bool.not_false, if_true]
      exact ⟨(f.runSection f.indepList).1, [], (f.runSection f.cycleDepList).1, [],
        some .topoFail, by simp, hT1, by simp, hT3, by simp⟩
    simp only [h3, Bool.not_true, Bool.false_eq_true, if_false]
    exact ⟨(f.runSection f.indepList).1, [], (f.runSection f.cycleDepList).1,
      (f.runSection f.runAfterList).1,
      if (f.runSection f.runAfterList).2 = true then none else some RunErr.topoFail,
      by simp, hT1, by simp, hT3, hT4⟩
  · rw [Bool.not_eq_true] at hemp
    simp only [hemp, Bool.false_eq_true, if_false]
    rcases hcl : convLoop behav
        (f.orderedCycle ((f.inCycleList).filter f.cycleStartB)) f.maximum_iterations
      with ⟨t2, e2⟩
    rw [hcl] at hT2
    simp only [hcl]
    cases e2 with
    | some e =>
        exact ⟨(f.runSection f.indepList).1, t2, [], [], some e, by simp, hT1, hT2,
          by simp, by simp⟩
    | none =>
        by_cases h3 : (f.runSection f.cycleDepList).2 = true
        swap
        · rw [Bool.not_eq_true] at h3
          simp only [h3, Bool.not_false, if_true]
          exact ⟨(f.runSection f.indepList).1, t2, (f.runSection f.cycleDepList).1, [],
            some .topoFail, by simp, hT1, hT2, hT3, by simp⟩
        simp only [h3, Bool.not_true, Bool.false_eq_true, if_false]
        exact ⟨(f.runSection f.indepList).1, t2, (f.runSection f.cycleDepList).1,
          (f.runSection f.runAfterList).1,
          if (f.runSection f.runAfterList).2 = true then none else some RunErr.topoFail,
          by simp, hT1, hT2, hT3, hT4⟩

/-- C5: within an acyclic section the schedule respects every internal edge
(`u` is invoked strictly before `v` for every edge `(u, v)` with both
endpoints in the sorted section), and `run_processes` executes the four
partitions in the fixed order independent, in-cycle, cycle-dependent,
deferred — its trace is a concatenation of four segments drawn from the
respective partitions. -/
theorem c5_schedule :
    (∀ (edges : List (Nat × Nat)) (nodes ord : List Nat) (u v : Nat),
        nodes.Nodup → topoSortP edges nodes = (ord, true) →
        (u, v) ∈ edges → u ∈ nodes → v ∈ nodes →
        List.indexOf u ord < List.indexOf v ord)
    ∧ (∀ (f : OpField) (behav : Nat → Nat → Bool),
        ∃ t1 t2 t3 t4 err,
          f.runProcesses behav = (t1 ++ (t2 ++ (t3 ++ t4)), err)
          ∧ (∀ x ∈ t1, x ∈ f.indepList) ∧ (∀ x ∈ t2, x ∈ f.inCycleList)
          ∧ (∀ x ∈ t3, x ∈ f.cycleDepList) ∧ (∀ x ∈ t4, x ∈ f.runAfterList)) :=
  ⟨fun edges nodes ord u v hn h he hu hv =>
      (topoSortP_order edges nodes ord hn h u v he hu hv).2,
   fun f behav => f.runProcesses_decomp behav⟩

/-- Witness for `c5_schedule`: the topological-order part applied to the
independent section of `exF5` (edge `(0, 1)` is scheduled in order), and the
decomposition part applied to `exF5` with never-converging behaviour. -/
theorem c5_schedule_witness :
    (List.indexOf 0 (topoSortP (exF5.inducedEdges exF5.indepList) exF5.indepList).1
        < List.indexOf 1 (topoSortP (exF5.inducedEdges exF5.indepList) exF5.indepList).1)
    ∧ (∃ t1 t2 t3 t4 err,
        exF5.runProcesses (fun _ _ => false) = (t1 ++ (t2 ++ (t3 ++ t4)), err)
        ∧ (∀ x ∈ t1, x ∈ exF5.indepList) ∧ (∀ x ∈ t2, x ∈ exF5.inCycleList)
        ∧ (∀ x ∈ t3, x ∈ exF5.cycleDepList) ∧ (∀ x ∈ t4, x ∈ exF5.runAfterList)) :=
  ⟨c5_schedule.1 (exF5.inducedEdges exF5.indepList) exF5.indepList
      (topoSortP (exF5.inducedEdges exF5.indepList) exF5.indepList).1 0 1
      (by decide) (by decide) (by decide) (by decide) (by decide),
   c5_schedule.2 exF5 (fun _ _ => false)⟩

/-! ## The imputation walk: freshness, uniqueness, reachability, stability -/

/-- A full specification of one `_impute_upstream` call: it only appends to
the visited list, appended processes are fresh (so a nodup visited list stays
nodup), and every appended process is reachable from the argument along
`impute`-flagged input edges. -/
theorem imp_spec (f : OpField) :
    ∀ fuel p v, ∃ ext, f.impOne fuel p v = v ++ ext
      ∧ (v.Nodup → (v ++ ext).Nodup)
      ∧ (∀ q ∈ ext, Relation.ReflTransGen (fun a b => b ∈ f.imputeNbrs a) p q) := by
  intro fuel
  induction fuel with
  | zero => intro p v; exact ⟨[], by simp [impOne], fun h => by simpa, by simp⟩
  | succ n ih =>
      intro p v
      unfold impOne
      by_cases hcond : (f.enabledB p && !v.contains p) = true
      case pos =>
            rw [if_pos hcond]
            have hpv : p ∉ v := by
              have := ((Bool.and_eq_true _ _).mp hcond).2
              simpa using this
            have hfold : ∀ (l : List Nat) (v₀ : List Nat),
                ∃ ext, l.foldl (fun v' r => f.impOne n r v') v₀ = v₀ ++ ext
                ∧ (v₀.Nodup → (v₀ ++ ext).Nodup)
                ∧ (∀ q ∈ ext, ∃ r ∈ l,
                    Relation.ReflTransGen (fun a b => b ∈ f.imputeNbrs a) r q) := by
              intro l
              induction l with
              | nil => intro v₀; exact ⟨[], by simp, fun h => by simpa, by simp⟩
              | cons r rs ihl =>
                  intro v₀
                  obtain ⟨e1, he1, hn1, hr1⟩ := ih r v₀
                  obtain ⟨e2, he2, hn2, hr2⟩ := ihl (f.impOne n r v₀)
                  rw [he1] at he2 hn2
                  refine ⟨e1 ++ e2, ?_, ?_, ?_⟩
                  · rw [List.foldl_cons, he1, he2, List.append_assoc]
                  · intro hnd
                    have := hn2 (hn1 hnd)
                    rwa [List.append_assoc] at this
                  · intro q hq
                    rcases List.mem_append.mp hq with h | h
                    · exact ⟨r, List.mem_cons_self .., hr1 q h⟩
                    · obtain ⟨r', hr', hq'⟩ := hr2 q h
                      exact ⟨r', List.mem_cons_of_mem _ hr', hq'⟩
            obtain ⟨e2, hres, hnodup, hreach⟩ := hfold (f.imputeNbrs p) (v ++ [p])
            refine ⟨p :: e2, ?_, ?_, ?_⟩
            · rw [hres, List.append_assoc]
              rfl
            · intro hnd
              have hvp : (v ++ [p]).Nodup := by
                simp [List.nodup_append, hnd, hpv]
              have := hnodup hvp
              rwa [List.append_assoc] at this
            · intro q hq
              rcases List.mem_cons.mp hq with h | h
              · subst h
                exact Relation.ReflTransGen.refl
              · obtain ⟨r, hrnb, hrq⟩ := hreach q h
                exact Relation.ReflTransGen.trans
                  (Relation.ReflTransGen.single hrnb) hrq
      case neg =>
            rw [if_neg hcond]
            exact ⟨[], by simp, fun h => by simpa, by simp⟩

/-- `_impute_upstream` only appends to the visited list. -/
theorem impOne_ext (f : OpField) (fuel p : Nat) (v : List Nat) :
    ∃ ext, f.impOne fuel p v = v ++ ext := by
  obtain ⟨ext, h, _, _⟩ := f.imp_spec fuel p v
  exact ⟨ext, h⟩

/-- A fold of `_impute_upstream` calls only appends to the visited list. -/
theorem impFold_ext (f : OpField) (n : Nat) :
    ∀ (l : List Nat) (v₀ : List Nat),
      ∃ ext, l.foldl (fun v' r => f.impOne n r v') v₀ = v₀ ++ ext := by
  intro l
  induction l with
  | nil => intro v₀; exact ⟨[], by simp⟩
  | cons r rs ihl =>
      intro v₀
      obtain ⟨e1, he1⟩ := f.impOne_ext n r v₀
      obtain ⟨e2, he2⟩ := ihl (f.impOne n r v₀)
      rw [he1] at he2
      exact ⟨e1 ++ e2, by rw [List.foldl_cons, he1, he2, List.append_assoc]⟩

/-- The number of declared processes not yet visited, the measure showing the
default fuel is enough. -/
def impFresh (f : OpField) (v : List Nat) : Nat :=
  ((f.allPids).toFinset \ v.toFinset).card

/-- Appending to the visited list never increases the measure. -/
theorem impFresh_mono (f : OpField) (v ext : List Nat) :
    f.impFresh (v ++ ext) ≤ f.impFresh v := by
  apply Finset.card_le_card
  apply Finset.sdiff_subset_sdiff (Finset.Subset.refl _)
  intro x hx
  simp only [List.toFinset_append, Finset.mem_union]
  exact Or.inl hx

/-- Visiting a fresh declared process strictly decreases the measure. -/
theorem impFresh_lt (f : OpField) {p : Nat} (hp : p ∈ f.allPids)
    {v : List Nat} (hv : p ∉ v) :
    f.impFresh (v ++ [p]) < f.impFresh v := by
  unfold impFresh
  have h1 : (v ++ [p]).toFinset = insert p v.toFinset := by
    ext x
    simp [or_comm]
  rw [h1]
  apply Finset.card_lt_card
  rw [Finset.ssubset_iff_of_subset
    (Finset.sdiff_subset_sdiff (Finset.Subset.refl _) (Finset.subset_insert _ _))]
  refine ⟨p, ?_, ?_⟩
  · simp [List.mem_toFinset, hp, hv]
  · simp

/-- A found process name is a declared process name. -/
theorem findProc_mem_allPids {f : OpField} {p : Nat} {pr : ProcSt}
    (h : f.findProc p = some pr) : p ∈ f.allPids := by
  have hmem : pr ∈ f.procs := List.mem_of_find?_eq_some h
  have hpid : pr.pid = p := by
    have := List.find?_some h
    simpa using this
  unfold allPids
  rw [List.mem_dedup]
  exact List.mem_map.mpr ⟨pr, hmem, hpid⟩

/-- Fuel stability of `_impute_upstream`: one unit of fuel above the number
of unvisited declared processes changes nothing — the walk terminates even
on cyclic topology, the visited marker bounding its depth. -/
theorem imp_stable (f : OpField) :
    ∀ fuel p v, f.impFresh v < fuel → f.impOne fuel p v = f.impOne (fuel + 1) p v := by
  intro fuel
  induction fuel with
  | zero => intro p v h; omega
  | succ n ih =>
      intro p v hfr
      conv_lhs => unfold impOne
      conv_rhs => unfold impOne
      by_cases hcond : (f.enabledB p && !v.contains p) = true
      · rw [if_pos hcond, if_pos hcond]
        have hpv : p ∉ v := by
          have := ((Bool.and_eq_true _ _).mp hcond).2
          simpa using this
        have hpmem : p ∈ f.allPids := by
          have hen := ((Bool.and_eq_true _ _).mp hcond).1
          unfold enabledB at hen
          cases hfp : f.findProc p with
          | none => rw [hfp] at hen; cases hen
          | some pr => exact findProc_mem_allPids hfp
        have hlt : f.impFresh (v ++ [p]) < n := by
          have := f.impFresh_lt hpmem hpv
          omega
        have hfold : ∀ (l : List Nat) (v₀ : List Nat), f.impFresh v₀ < n →
            l.foldl (fun v' r => f.impOne n r v') v₀
              = l.foldl (fun v' r => f.impOne (n + 1) r v') v₀ := by
          intro l
          induction l with
          | nil => intro v₀ _; rfl
          | cons r rs ihl =>
              intro v₀ h₀
              simp only [List.foldl_cons]
              rw [← ih r v₀ h₀]
              refine ihl (f.impOne n r v₀) ?_
              obtain ⟨ext, hext⟩ := f.impOne_ext n r v₀
              rw [hext]
              exact lt_of_le_of_lt (f.impFresh_mono v₀ ext) h₀
        exact hfold (f.imputeNbrs p) (v ++ [p]) hlt
      · rw [if_neg hcond, if_neg hcond]

/-- Any surplus of fuel beyond the default leaves the imputation walk
unchanged. -/
theorem imputeWalk_stable (f : OpField) (start : Nat) :
    ∀ k, f.impOne (f.impFuel + k) start [] = f.imputeWalk start := by
  have hfr : ∀ j, f.impFresh [] < f.impFuel + j := by
    intro j
    unfold impFresh impFuel
    have := (f.allPids).toFinset_card_le
    simp only [List.toFinset_nil, Finset.sdiff_empty]
    omega
  intro k
  induction k with
  | zero => rfl
  | succ j ihj =>
      have hstep := f.imp_stable (f.impFuel + j) start [] (hfr j)
      rw [show f.impFuel + (j + 1) = (f.impFuel + j) + 1 from rfl, ← hstep]
      exact ihj

/-- C7: the imputation walk from the single start process invokes each
process's `impute()` at most once (the visited trace has no duplicates), a
node's `impute()` runs before its upstream neighbours are recursed into
(the node is appended ahead of everything its recursion adds), the walk
follows only `impute`-flagged enabled input edges (every visited process is
upstream-reachable through such edges), and the walk is fuel-stable — it
terminates even on cyclic topology. -/
theorem c7_impute_walk (f : OpField) (start : Nat) :
    (f.imputeWalk start).Nodup
    ∧ (∀ q ∈ f.imputeWalk start,
        Relation.ReflTransGen (fun a b => b ∈ f.imputeNbrs a) start q)
    ∧ (∀ k, f.impOne (f.impFuel + k) start [] = f.imputeWalk start)
    ∧ (∀ fuel p v, f.enabledB p = true → p ∉ v →
        ∃ rest, f.impOne (fuel + 1) p v = v ++ p :: rest) := by
  obtain ⟨ext, hext, hnd, hreach⟩ := f.imp_spec f.impFuel start []
  refine ⟨?_, ?_, f.imputeWalk_stable start, ?_⟩
  · unfold imputeWalk
    rw [hext]
    exact hnd List.nodup_nil
  · intro q hq
    unfold imputeWalk at hq
    rw [hext] at hq
    exact hreach q (by simpa using hq)
  · intro fuel p v hen hpv
    have hun : f.impOne (fuel + 1) p v
        = (f.imputeNbrs p).foldl (fun v' r => f.impOne fuel r v') (v ++ [p]) := by
      simp only [impOne]
      rw [if_pos (by simp [hen, hpv])]
    obtain ⟨e, he⟩ := f.impFold_ext fuel (f.imputeNbrs p) (v ++ [p])
    refine ⟨e, ?_⟩
    rw [hun, he, List.append_assoc]
    rfl

/-- Witness for `c7_impute_walk` at `exF7`: the walk from process 2 runs
upstream around the 3-cycle exactly once, visiting `[2, 1, 0]` — each node
once, the start first, every visited node upstream-reachable over `impute`
edges, and extra fuel changes nothing. -/
theorem c7_impute_walk_witness :
    exF7.imputeWalk 2 = [2, 1, 0]
    ∧ (exF7.imputeWalk 2).Nodup
    ∧ Relation.ReflTransGen (fun a b => b ∈ exF7.imputeNbrs a) 2 0
    ∧ exF7.impOne (exF7.impFuel + 3) 2 [] = exF7.imputeWalk 2
    ∧ (∃ rest, exF7.impOne (5 + 1) 2 [] = [] ++ 2 :: rest) :=
  ⟨by decide,
   (c7_impute_walk exF7 2).1,
   (c7_impute_walk exF7 2).2.1 0 (by decide),
   (c7_impute_walk exF7 2).2.2.1 3,
   (c7_impute_walk exF7 2).2.2.2 5 2 [] (by decide) (by decide)⟩

/-! ## The backward cycle-dependency walk (`_depends_on_cycle`) -/

/-- One step of the predecessor loop of `_depends_on_cycle`: a verdict of
`true` is final; otherwise an already-visited predecessor yields `true`, and
a fresh one is added to the visited list and recursed into. -/
def depStep (f : OpField) (fuel : Nat) : Bool × List Nat → Nat → Bool × List Nat :=
  fun acc r =>
    match acc with
    | (true, v') => (true, v')
    | (false, v') => if r ∈ v' then (true, v') else f.depOne fuel r (v' ++ [r])

/-- The successor-fuel unfolding of `_depends_on_cycle`. -/
theorem depOne_succ (f : OpField) (fuel p : Nat) (v : List Nat) :
    f.depOne (fuel + 1) p v = (f.predsOf p).foldl (f.depStep fuel) (false, v) := by
  simp only [depOne]
  rfl

/-- A `true` verdict is absorbing for the predecessor loop. -/
theorem depFold_absorb (f : OpField) (fuel : Nat) :
    ∀ (rs : List Nat) (w : List Nat),
      rs.foldl (f.depStep fuel) (true, w) = (true, w) := by
  intro rs
  induction rs with
  | nil => intro w; rfl
  | cons r rs ih => intro w; simp only [List.foldl_cons]; exact ih w

/-- The universe of nodes a backward walk can ever visit: the distinct
source names of streams. -/
def depU (f : OpField) : List Nat := (f.strms.map (·.src_name)).dedup

/-- Unvisited universe size, the measure showing `depFuel` is enough. -/
def depFresh (f : OpField) (v : List Nat) : Nat :=
  ((f.depU).toFinset \ v.toFinset).card

/-- Predecessors are stream source names. -/
theorem predsOf_sub_depU (f : OpField) (q : Nat) :
    ∀ r ∈ f.predsOf q, r ∈ f.depU := by
  intro r hr
  unfold predsOf at hr
  rw [List.mem_dedup] at hr
  obtain ⟨s, hs, hsr⟩ := List.mem_map.mp hr
  unfold depU
  rw [List.mem_dedup]
  exact List.mem_map.mpr ⟨s, List.mem_of_mem_filter (List.mem_of_mem_filter hs), hsr⟩

/-- Appending never increases the unvisited measure. -/
theorem depFresh_mono (f : OpField) (v ext : List Nat) :
    f.depFresh (v ++ ext) ≤ f.depFresh v := by
  apply Finset.card_le_card
  apply Finset.sdiff_subset_sdiff (Finset.Subset.refl _)
  intro x hx
  simp only [List.toFinset_append, Finset.mem_union]
  exact Or.inl hx

/-- Visiting a fresh universe node strictly decreases the measure. -/
theorem depFresh_lt (f : OpField) {p : Nat} (hp : p ∈ f.depU)
    {v : List Nat} (hv : p ∉ v) :
    f.depFresh (v ++ [p]) < f.depFresh v := by
  unfold depFresh
  have h1 : (v ++ [p]).toFinset = insert p v.toFinset := by
    ext x
    simp [or_comm]
  rw [h1]
  apply Finset.card_lt_card
  rw [Finset.ssubset_iff_of_subset
    (Finset.sdiff_subset_sdiff (Finset.Subset.refl _) (Finset.subset_insert _ _))]
  refine ⟨p, ?_, ?_⟩
  · simp [List.mem_toFinset, hp, hv]
  · simp

/-- Everything a completed `false` run guarantees about the nodes it
visited: each one's predecessors are all in the final visited list and
strictly after it. -/
def DepClosed (f : OpField) (vfin ext : List Nat) : Prop :=
  ∀ q ∈ ext, ∀ r ∈ f.predsOf q, r ∈ vfin
    ∧ List.indexOf q vfin < List.indexOf r vfin

/-- `DepClosed` survives appending more nodes after the segment. -/
theorem depClosed_mono (f : OpField) {w ws ext : List Nat}
    (hsub : ∀ q ∈ ext, q ∈ w) (hcl : f.DepClosed w ext) :
    f.DepClosed (w ++ ws) ext := by
  intro q hq r hr
  obtain ⟨hrw, hidx⟩ := hcl q hq r hr
  refine ⟨List.mem_append_left _ hrw, ?_⟩
  rw [List.indexOf_append_of_mem (hsub q hq), List.indexOf_append_of_mem hrw]
  exact hidx

/-- The central invariant of `_depends_on_cycle`: a run that returns `false`
has appended exactly the fresh nodes it explored, the root's predecessors
are all among them, and every appended node's predecessors sit in the final
visited list strictly after it. -/
theorem dep_false_inv (f : OpField) :
    ∀ fuel p v vfin, v.Nodup → f.depFresh v < fuel →
      f.depOne fuel p v = (false, vfin) →
      ∃ ext, vfin = v ++ ext ∧ vfin.Nodup ∧ (∀ x ∈ ext, x ∉ v)
        ∧ (∀ r ∈ f.predsOf p, r ∈ ext) ∧ f.DepClosed vfin ext := by
  intro fuel
  induction fuel with
  | zero => intro p v vfin _ h; omega
  | succ n ih =>
      intro p v vfin hnd hfr heq
      rw [depOne_succ] at heq
      have hfold : ∀ (rs : List Nat) (v₀ w : List Nat),
          v₀.Nodup → (∀ r ∈ rs, r ∈ f.depU) → f.depFresh v₀ ≤ n →
          rs.foldl (f.depStep n) (false, v₀) = (false, w) →
          ∃ ext, w = v₀ ++ ext ∧ w.Nodup ∧ (∀ x ∈ ext, x ∉ v₀)
            ∧ (∀ r ∈ rs, r ∈ ext) ∧ f.DepClosed w ext := by
        intro rs
        induction rs with
        | nil =>
            intro v₀ w hnd₀ _ _ heq₀
            injection heq₀ with _ h2
            subst h2
            exact ⟨[], by simp, hnd₀, by simp, by simp,
              fun q hq => absurd hq (List.not_mem_nil q)⟩
        | cons r rs ihl =>
            intro v₀ w hnd₀ hsub hbud heq₀
            simp only [List.foldl_cons] at heq₀
            by_cases hrv : r ∈ v₀
            · rw [show f.depStep n (false, v₀) r = (true, v₀) by
                simp [depStep, hrv]] at heq₀
              rw [depFold_absorb] at heq₀
              cases heq₀
            · rw [show f.depStep n (false, v₀) r = f.depOne n r (v₀ ++ [r]) by
                simp [depStep, hrv]] at heq₀
              rcases hrec : f.depOne n r (v₀ ++ [r]) with ⟨b, w1⟩
              rw [hrec] at heq₀
              cases b with
              | true => rw [depFold_absorb] at heq₀; cases heq₀
              | false =>
                have hrU : r ∈ f.depU := hsub r (List.mem_cons_self ..)
                have hnd1 : (v₀ ++ [r]).Nodup := by
                  simp [List.nodup_append, hnd₀, hrv]
                have hfr1 : f.depFresh (v₀ ++ [r]) < n :=
                  lt_of_lt_of_le (f.depFresh_lt hrU hrv) hbud
                obtain ⟨e1, he1, hnd2, hfresh1, hpred1, hcl1⟩ :=
                  ih r (v₀ ++ [r]) w1 hnd1 hfr1 hrec
                have hbud2 : f.depFresh w1 ≤ n := by
                  rw [he1]
                  have h1 := f.depFresh_mono (v₀ ++ [r]) e1
                  omega
                obtain ⟨e2, he2, hnd3, hfresh2, hpred2, hcl2⟩ :=
                  ihl w1 w hnd2 (fun r' hr' => hsub r' (List.mem_cons_of_mem _ hr'))
                    hbud2 heq₀
                have hw : w = v₀ ++ (r :: (e1 ++ e2)) := by
                  rw [he2, he1]
                  simp [List.append_assoc]
                have hv₀w1 : ∀ x ∈ v₀, x ∈ w1 := by
                  intro x hx
                  rw [he1]
                  exact List.mem_append_left _ (List.mem_append_left _ hx)
                refine ⟨r :: (e1 ++ e2), hw, hnd3, ?_, ?_, ?_⟩
                · intro x hx
                  rcases List.mem_cons.mp hx with h | h
                  · subst h; exact hrv
                  · rcases List.mem_append.mp h with h' | h'
                    · intro hxv
                      exact hfresh1 x h' (List.mem_append_left _ hxv)
                    · intro hxv
                      exact hfresh2 x h' (hv₀w1 x hxv)
                · intro r' hr'
                  rcases List.mem_cons.mp hr' with h | h
                  · subst h; exact List.mem_cons_self ..
                  · exact List.mem_cons_of_mem _
                      (List.mem_append_right _ (hpred2 r' h))
                · -- DepClosed w (r :: (e1 ++ e2))
                  intro q hq s hs
                  rcases List.mem_cons.mp hq with hqr | hq'
                  · -- q = r : its predecessors are in e1, strictly after r
                    subst hqr
                    have hse1 : s ∈ e1 := hpred1 s hs
                    have hsw1 : s ∈ w1 := by
                      rw [he1]; exact List.mem_append_right _ hse1
                    have hsw : s ∈ w := by
                      rw [he2]; exact List.mem_append_left _ hsw1
                    refine ⟨hsw, ?_⟩
                    have hsv₀r : s ∉ v₀ ++ [q] := hfresh1 s hse1
                    have hsv₀ : s ∉ v₀ :=
                      fun hx => hsv₀r (List.mem_append_left _ hx)
                    have hsr : s ≠ q := by
                      intro hx
                      exact hsv₀r (by simp [hx])
                    rw [hw]
                    rw [List.indexOf_append_of_not_mem hrv,
                      List.indexOf_append_of_not_mem hsv₀]
                    rw [List.indexOf_cons_self]
                    rw [List.indexOf_cons_ne _ (fun h => hsr h.symm)]
                    omega
                  · rcases List.mem_append.mp hq' with hqe1 | hqe2
                    · -- q ∈ e1 : closed in w1, transfer along w = w1 ++ e2
                      have : f.DepClosed (w1 ++ e2) e1 := by
                        apply f.depClosed_mono
                        · intro x hx
                          rw [he1]
                          exact List.mem_append_right _ hx
                        · exact hcl1
                      have hq2 := this q hqe1 s hs
                      rwa [← he2] at hq2
                    · exact hcl2 q hqe2 s hs
      exact hfold (f.predsOf p) v vfin hnd (f.predsOf_sub_depU p) (by omega) heq

/-- Soundness of the backward reachability closure: membership means a real
chain of predecessor steps. -/
theorem backReach_sound (f : OpField) (a : Nat) :
    ∀ q ∈ f.backReachList a, Relation.TransGen (f.PredStep) a q := by
  suffices h : ∀ n (S : List Nat), (∀ x ∈ S, Relation.TransGen (f.PredStep) a x) →
      ∀ x ∈ (f.reachStep)^[n] S, Relation.TransGen (f.PredStep) a x by
    intro q hq
    exact h f.depFuel (f.predsOf a)
      (fun x hx => Relation.TransGen.single hx) q hq
  intro n
  induction n with
  | zero => intro S hS x hx; exact hS x hx
  | succ m ihm =>
      intro S hS x hx
      rw [Function.iterate_succ_apply] at hx
      refine ihm (f.reachStep S) ?_ x hx
      intro y hy
      unfold reachStep at hy
      rw [List.mem_dedup] at hy
      rcases List.mem_append.mp hy with h | h
      · exact hS y h
      · obtain ⟨q', hq', hy'⟩ := List.mem_flatMap.mp h
        exact Relation.TransGen.tail (hS q' hq') hy'

/-- Completeness of `_depends_on_cycle`: a node with genuine cycle ancestry
— some node on the backward walk from it lies on a predecessor cycle — is
reported as depending on a cycle. -/
theorem dep_complete (f : OpField) (p : Nat) (hgen : f.genuineB p = true) :
    f.dependsOnCycle p = true := by
  by_contra hfalse
  rw [Bool.not_eq_true] at hfalse
  rcases hdep : f.depOne f.depFuel p [] with ⟨b, vfin⟩
  have hb : b = false := by
    unfold dependsOnCycle at hfalse
    rw [hdep] at hfalse
    exact hfalse
  subst hb
  have hfr : f.depFresh [] < f.depFuel := by
    unfold depFresh depFuel depU
    have := ((f.strms.map (·.src_name)).dedup).toFinset_card_le
    simp only [List.toFinset_nil, Finset.sdiff_empty]
    omega
  obtain ⟨ext, hext, hnodup, _, hpreds, hclosed⟩ :=
    f.dep_false_inv f.depFuel p [] vfin List.nodup_nil hfr hdep
  have hve : vfin = ext := by simpa using hext
  subst hve
  have hmono : ∀ a b, Relation.TransGen (f.PredStep) a b → a ∈ vfin →
      b ∈ vfin ∧ List.indexOf a vfin < List.indexOf b vfin := by
    intro a b htg
    induction htg with
    | single h => intro ha; exact hclosed a ha _ h
    | tail htg h ih =>
        intro ha
        obtain ⟨hb', hidx⟩ := ih ha
        obtain ⟨hb, hidx2⟩ := hclosed _ hb' _ h
        exact ⟨hb, lt_trans hidx hidx2⟩
  have hreach_mem : ∀ q, Relation.TransGen (f.PredStep) p q → q ∈ vfin := by
    intro q htg
    obtain ⟨r, h1, hrest⟩ := Relation.TransGen.head'_iff.mp htg
    have hrv : r ∈ vfin := hpreds r h1
    rcases Relation.reflTransGen_iff_eq_or_transGen.mp hrest with h | h
    · rw [h]; exact hrv
    · exact (hmono r q h hrv).1
  obtain ⟨q, hqmem, hqcyc⟩ := List.any_eq_true.mp hgen
  have hqq : Relation.TransGen (f.PredStep) q q :=
    f.backReach_sound q q (by simpa using hqcyc)
  have hqv : q ∈ vfin := by
    rcases List.mem_cons.mp hqmem with h | h
    · subst h
      exact hreach_mem q hqq
    · exact hreach_mem q (f.backReach_sound p q h)
  have := (hmono q q hqq hqv).2
  omega

/-- C3 (amended): an enabled process not on any cycle is classified
cycle-dependent whenever a backward walk from it genuinely revisits an
ancestor along a path — some ancestor lies on a predecessor cycle — provided
some enabled process lies on a detected cycle (the gate under which the code
computes the set at all).  The converse direction of the original claim is
false: the walk's visited set is shared across branches, so reconverging
acyclic ancestry (a diamond) is also classified cycle-dependent
(`c3_counterexample`). -/
theorem c3_cycle_dependence (f : OpField) (p : Nat)
    (hen : f.enabledB p = true) (hnc : f.inCycleB p = false)
    (hcp : f.hasCycleProcs = true) (hgen : f.genuineB p = true) :
    f.cycleDepB p = true := by
  unfold cycleDepB
  rw [hen, hnc, hcp, f.dep_complete p hgen]
  rfl

set_option maxRecDepth 8000 in
/-- C3 counterexample: in `exF3` — a diamond `0 → {1, 2} → 3` next to a
separate 2-cycle `{4, 5}`, with `cycles` certified to be exactly the simple
cycles of the graph — node 3's backward ancestry is acyclic (no ancestor is
on any cycle), yet the partitioner classifies node 3 as cycle-dependent. -/
theorem c3_counterexample :
    exF3.cyclesSpecOK = true ∧ exF3.genuineB 3 = false
    ∧ exF3.cycleDepB 3 = true := by decide

set_option maxRecDepth 8000 in
/-- Witness for `c3_cycle_dependence` at `exF3b`: node 6, fed by the 2-cycle
`{4, 5}`, has genuine cycle ancestry and is classified cycle-dependent. -/
theorem c3_cycle_dependence_witness :
    exF3b.cyclesSpecOK = true ∧ exF3b.genuineB 6 = true
    ∧ exF3b.cycleDepB 6 = true :=
  ⟨by decide, by decide,
   c3_cycle_dependence exF3b 6 (by decide) (by decide) (by decide) (by decide)⟩

/-- Witness for `c4_convergence_signal` at `exF5`: node 3 signals in pass 2,
so the loop runs `[2, 3]`, then `[2, 3]` again up to the signal, and the run
finishes without error, node 4 and the `run_after` node 5 included. -/
theorem c4_convergence_signal_witness :
    (convLoop (fun k q => k == 2 && q == 3)
        (exF5.orderedCycle ((exF5.inCycleList).filter exF5.cycleStartB)) 5
      = ((List.replicate 1 ([2] ++ 3 :: [])).flatten ++ ([2] ++ [3]), none))
    ∧ exF5.runProcesses (fun k q => k == 2 && q == 3)
      = ([0, 1, 2, 3, 2, 3, 4, 5], none) := by
  have h := c4_convergence_signal exF5 (fun k q => k == 2 && q == 3)
    2 [2] [] 3 (by omega) (by decide) (by decide)
    (by intro j q hj; interval_cases j <;> simp)
    (by decide) (by decide) (by decide) (by decide) (by decide) (by decide) (by decide)
  exact ⟨h.1, by decide⟩

/-! ## The graph build: C8 and C9 -/

/-- A successful `_connect_processes` run is a successful run of the wiring
loop from the initial state (enabled processes cleared and preregistered as
nodes), whose components land in the rebuilt field. -/
theorem connectProcesses_ok_elim {f fo : OpField} {nodes : List Nat}
    {edges : List (Nat × Nat)}
    (h : f.connectProcesses = Except.ok (fo, nodes, edges)) :
    f.connGo f.strms (clearEnabled f.procs, [], (f.enabledList).foldl addNode [], [])
      = Except.ok (fo.procs, fo.strms, nodes, edges) := by
  unfold connectProcesses at h
  cases hc : f.connGo f.strms
      (clearEnabled f.procs, [], (f.enabledList).foldl addNode [], []) with
  | error e => rw [hc] at h; cases h
  | ok st =>
      obtain ⟨P, S, N, E⟩ := st
      rw [hc] at h
      injection h with h'
      have hfo : fo = { f with procs := P, strms := S } :=
        (congrArg Prod.fst h').symm
      have hN : N = nodes := congrArg (fun t => t.2.1) h'
      have hE : E = edges := congrArg (fun t => t.2.2) h'
      subst hfo
      rw [hN, hE]

/-- `_connect_processes` fails precisely when some enabled stream names an
endpoint process that does not exist. -/
theorem connectProcesses_error_iff (f : OpField) :
    (∃ e, f.connectProcesses = Except.error e) ↔
      ∃ s ∈ f.strms, s.enabled = true ∧
        (f.findProc s.src_name = none ∨ f.findProc s.dst_name = none) := by
  rw [← connGo_error_iff f f.strms
    (clearEnabled f.procs, [], (f.enabledList).foldl addNode [], [])]
  unfold connectProcesses
  cases hc : f.connGo f.strms
      (clearEnabled f.procs, [], (f.enabledList).foldl addNode [], []) with
  | error e =>
      exact ⟨fun _ => ⟨e, rfl⟩, fun _ => ⟨e, rfl⟩⟩
  | ok st =>
      obtain ⟨P, S, N, E⟩ := st
      constructor
      · rintro ⟨e, he⟩; cases he
      · rintro ⟨e, he⟩; cases he

/-- `find?` by pid through the enabled-clearing pass. -/
theorem clearEnabled_find (ps : List ProcSt) (p : Nat) :
    (clearEnabled ps).find? (fun q => q.pid == p)
      = (ps.find? (fun q => q.pid == p)).map
          (fun q => if q.enabled then { q with inputs := [], outputs := [] } else q) := by
  have hg : ∀ q : ProcSt,
      ((fun q : ProcSt =>
          if q.enabled then { q with inputs := [], outputs := [] } else q) q).pid
        = q.pid := fun q => pid_ite _ _ q rfl
  unfold clearEnabled
  exact findIn_map_pid hg ps p

/-- Resolving a stream's endpoint references keeps its id. -/
theorem resolveStream_sid (s : StrmSt) : (resolveStream s).sid = s.sid := by
  unfold resolveStream; split <;> rfl

/-- Resolving a stream's endpoint references keeps its `enabled` flag. -/
theorem resolveStream_enabled (s : StrmSt) :
    (resolveStream s).enabled = s.enabled := by
  unfold resolveStream; split <;> rfl

/-- Resolving a stream's endpoint references keeps its source name. -/
theorem resolveStream_src (s : StrmSt) :
    (resolveStream s).src_name = s.src_name := by
  unfold resolveStream; split <;> rfl

/-- Resolving a stream's endpoint references keeps its destination name. -/
theorem resolveStream_dst (s : StrmSt) :
    (resolveStream s).dst_name = s.dst_name := by
  unfold resolveStream; split <;> rfl

/-- Filtering by a resolution-invariant predicate and projecting ids is
unchanged by endpoint resolution. -/
theorem resolve_filter_sid (q : StrmSt → Bool)
    (hq : ∀ s, q (resolveStream s) = q s) :
    ∀ l : List StrmSt,
      ((l.map resolveStream).filter q).map (fun s => s.sid)
        = (l.filter q).map (fun s => s.sid) := by
  intro l
  induction l with
  | nil => rfl
  | cons a t ih =>
      simp only [List.map_cons, List.filter_cons, hq a]
      cases hqa : q a
      · simp only [Bool.false_eq_true, if_false, ih]
      · simp only [if_true, List.map_cons, resolveStream_sid, ih]


/-- C8 (amended): the builder fails with a lookup error precisely when some
enabled stream names a process that does not exist; on success the vertex set
is the enabled processes together with every endpoint of an enabled stream,
and the edge list has exactly one edge per enabled stream, wired to its
resolved endpoints.  The original claim — vertex set all declared nodes,
enabled and disabled alike, and one edge per declared edge — is false: a
disabled process touched by no enabled stream never becomes a node, and a
disabled stream contributes no edge (`c8_counterexample`). -/
theorem c8_graph (f : OpField) :
    ((∃ e, f.connectProcesses = Except.error e) ↔
      ∃ s ∈ f.strms, s.enabled = true ∧
        (f.findProc s.src_name = none ∨ f.findProc s.dst_name = none))
    ∧ ∀ fo nodes edges, f.connectProcesses = Except.ok (fo, nodes, edges) →
        ((∀ x, x ∈ nodes ↔ x ∈ f.enabledList ∨
            ∃ s ∈ f.strms, s.enabled = true ∧ (s.src_name = x ∨ s.dst_name = x))
          ∧ edges = f.graphEdges) := by
  refine ⟨connectProcesses_error_iff f, ?_⟩
  intro fo nodes edges hok
  have hc := connectProcesses_ok_elim hok
  obtain ⟨hstrms, hnodes, hedges, -⟩ := connGo_ok_spec f f.strms _ _ hc
  constructor
  · intro x
    rw [show (x ∈ nodes ↔ x ∈ ((f.enabledList).foldl addNode []) ∨
        ∃ s ∈ f.strms, s.enabled = true ∧ (s.src_name = x ∨ s.dst_name = x))
      from hnodes x]
    rw [addNode_foldl_mem]
    simp only [List.not_mem_nil, false_or]
  · rw [show edges = [] ++ (f.strms.filter (fun s => s.enabled)).map
        (fun s => (s.src_name, s.dst_name)) from hedges]
    simp [graphEdges, streamsEnabled]

/-- C8 counterexample: in `exF8` the disabled process 2 is a declared node
but absent from the built vertex list, and the disabled stream `1 → 0` is a
declared edge but absent from the built edge list. -/
theorem c8_counterexample :
    2 ∈ exF8.allPids
    ∧ (1, 0) ∈ exF8.strms.map (fun s => (s.src_name, s.dst_name))
    ∧ exF8.connectNodes = some [0, 1]
    ∧ exF8.connectEdges = some [(0, 1)]
    ∧ 2 ∉ ([0, 1] : List Nat)
    ∧ (1, 0) ∉ ([(0, 1)] : List (Nat × Nat)) := by decide

/-- Witness for `c8_graph` at `exF8w`: the build succeeds with vertex list
`[0]` and no edges, the membership characterisation holds at `0`, and the
edge list is the field's declared enabled-edge list. -/
theorem c8_graph_witness :
    exF8w.connectProcesses = Except.ok (exF8w, [0], [])
    ∧ (0 ∈ ([0] : List Nat) ↔ 0 ∈ exF8w.enabledList ∨
        ∃ s ∈ exF8w.strms, s.enabled = true ∧ (s.src_name = 0 ∨ s.dst_name = 0))
    ∧ ([] : List (Nat × Nat)) = exF8w.graphEdges :=
  ⟨by decide,
   ((c8_graph exF8w).2 exF8w [0] [] (by decide)).1 0,
   ((c8_graph exF8w).2 exF8w [0] [] (by decide)).2⟩

/-- C9 (amended): `_connect_processes` clears the edge lists of the *enabled*
processes only, so the rebuild is idempotent on every enabled process: after
a second build, every enabled process's record — its input and output edge
lists included — is exactly what the first build produced.  The original
claim over *every* node is false: a disabled endpoint of an enabled stream is
never cleared and accumulates a duplicate entry per rebuild
(`c9_counterexample`). -/
theorem c9_connect (f f1 f2 : OpField) (n1 n2 : List Nat)
    (e1 e2 : List (Nat × Nat))
    (h1 : f.connectProcesses = Except.ok (f1, n1, e1))
    (h2 : f1.connectProcesses = Except.ok (f2, n2, e2))
    (p : Nat) (hp : f.enabledB p = true) :
    f2.findProc p = f1.findProc p := by
  have hc1 := connectProcesses_ok_elim h1
  have hc2 := connectProcesses_ok_elim h2
  obtain ⟨hstrms1, -, -, hprocs1⟩ := connGo_ok_spec f f.strms _ _ hc1
  obtain ⟨-, -, -, hprocs2⟩ := connGo_ok_spec f1 f1.strms _ _ hc2
  unfold enabledB at hp
  cases hpr : f.findProc p with
  | none =>
      rw [hpr] at hp
      exact absurd hp (by simp)
  | some pr =>
      rw [hpr] at hp
      obtain ⟨pid0, en, ra, cs, is0, inp, out0⟩ := pr
      have hpe : en = true := hp
      subst hpe
      have hfind : f.procs.find? (fun q => q.pid == p)
          = some ⟨pid0, true, ra, cs, is0, inp, out0⟩ := hpr
      have hclear1 : (clearEnabled f.procs).find? (fun q => q.pid == p)
          = some ⟨pid0, true, ra, cs, is0, [], []⟩ := by
        rw [clearEnabled_find, hfind]
        rfl
      have hq1 := hprocs1 p _ hclear1
      have hclear2 : (clearEnabled f1.procs).find? (fun q => q.pid == p)
          = some ⟨pid0, true, ra, cs, is0, [], []⟩ := by
        rw [clearEnabled_find, hq1]
        rfl
      have hq2 := hprocs2 p _ hclear2
      have hI : (f1.strms.filter (fun s => s.enabled && s.dst_name == p)).map
            (fun s => s.sid)
          = (f.strms.filter (fun s => s.enabled && s.dst_name == p)).map
            (fun s => s.sid) := by
        rw [show f1.strms = f.strms.map resolveStream from hstrms1]
        exact resolve_filter_sid _
          (fun s => by simp [resolveStream_enabled, resolveStream_dst]) f.strms
      have hO : (f1.strms.filter (fun s => s.enabled && s.src_name == p)).map
            (fun s => s.sid)
          = (f.strms.filter (fun s => s.enabled && s.src_name == p)).map
            (fun s => s.sid) := by
        rw [show f1.strms = f.strms.map resolveStream from hstrms1]
        exact resolve_filter_sid _
          (fun s => by simp [resolveStream_enabled, resolveStream_src]) f.strms
      show f2.procs.find? (fun q => q.pid == p) = f1.procs.find? (fun q => q.pid == p)
      rw [hq2, hq1, hI, hO]

/-- C9 counterexample: in `exF9` the disabled process 1 feeds the enabled
process 0; after one build its output list is `[0]`, after a second build it
is `[0, 0]` — the rebuild is not idempotent on disabled nodes. -/
theorem c9_counterexample :
    (exF9.connectOnce).map (fun g => (g.findProc 1).map (fun q => q.outputs))
      = some (some [0])
    ∧ (exF9.connectTwice).map (fun g => (g.findProc 1).map (fun q => q.outputs))
      = some (some [0, 0]) := by decide

/-- Witness for `c9_connect` at `exF9w`: both builds succeed, process 0 is
enabled, and its record after the second build equals its record after the
first. -/
theorem c9_connect_witness :
    exF9w.connectProcesses = Except.ok (exF9wG1, [0], [(0, 0)])
    ∧ exF9wG1.connectProcesses = Except.ok (exF9wG2, [0], [(0, 0)])
    ∧ exF9w.enabledB 0 = true
    ∧ exF9wG2.findProc 0 = exF9wG1.findProc 0 :=
  ⟨by decide, by decide, by decide,
   c9_connect exF9w exF9wG1 exF9wG2 [0] [0] [(0, 0)] [(0, 0)]
     (by decide) (by decide) 0 (by decide)⟩

end OpField
